import Mathlib

/-
  A shallow embedding of the transactional ZFS management core of zsys
  (package internal/zfs).  The implementation of that package is not part
  of the source tree here (only its test suite and callers are), so the
  definitions below are modelled from the specification, with the test
  suite as the authority where it pins behaviour down.
-/

namespace Zsys

/-- Path of a dataset: the `/`-separated segments of its full ZFS name. -/
abbrev Path := List String

/-- Modelled from the spec: a dataset or snapshot name.  Snapshots carry the
short snapshot name right of the `@`; live datasets have `snap = none`. -/
structure DsName where
  path : Path
  snap : Option String
deriving DecidableEq, Repr

/-- Modelled from the spec (section 7): the error kinds surfaced by the verbs. -/
inductive ZErr where
  | notFound
  | alreadyExists
  | invalidArgument
  | propertyPolicy
  | hasClones
  | missingIntermediate
  | transactionViolation
deriving DecidableEq, Repr

/-- Modelled from the spec (section 4.3): the canmount property name. -/
def CanmountProp : String := "canmount"

/-- Modelled from the spec (section 4.3): the mountpoint property name
(not settable through the set-property verb). -/
def MountPointProp : String := "mountpoint"

/-- Modelled from the spec (section 4.3): the bootfs property name. -/
def BootfsProp : String := "bootfs"

/-- Modelled from the spec (section 6): the chosen user-property name for the
bootfs-datasets list (user properties follow the `namespace:name` convention). -/
def BootfsDatasetsProp : String := "org.zsys:bootfs-datasets"

/-- The magic constant the tests normalize snapshot creation times to
(source: the test suite, `currentMagicTime`). -/
def currentMagicTime : Nat := 2000000000

/-- `isUnder a q` holds when path `a` is a (non-strict) ancestor of path `q`,
that is, `a` is a segment-wise prefix of `q`. -/
def isUnder : Path → Path → Bool
  | [], _ => true
  | _ :: _, [] => false
  | a :: as, b :: bs => a == b && isUnder as bs

/-- `strictUnder a q`: `a` is a strict ancestor of `q`. -/
def strictUnder (a q : Path) : Bool :=
  isUnder a q && decide (a.length < q.length)

/-- Replace the final segment of a path. -/
def replaceLast : Path → String → Path
  | [], _ => []
  | [_], seg => [seg]
  | a :: b :: rest, seg => a :: replaceLast (b :: rest) seg

/-- Final segment of a path (empty for the empty path). -/
def lastSeg : Path → String
  | [] => ""
  | [a] => a
  | _ :: b :: rest => lastSeg (b :: rest)

/-- Modelled from the spec (section 9, clone naming): a trailing `_<suffix>`
made of alphanumeric characters is stripped off the segment; otherwise the
segment is kept whole (so the new suffix is appended). -/
def stemOf (seg : String) : String :=
  let rev := seg.data.reverse
  let suf := rev.takeWhile (fun c => c.isAlphanum)
  match rev.drop suf.length with
  | '_' :: stemRev => if suf.isEmpty then seg else String.mk stemRev.reverse
  | _ => seg

/-- Look up a user property in a local-property association list. -/
def getU : List (String × String) → String → Option String
  | [], _ => none
  | (k, v) :: rest, key => if k = key then some v else getU rest key

/-- Remove a user property from a local-property association list. -/
def eraseU (l : List (String × String)) (key : String) : List (String × String) :=
  l.filter (fun e => !(e.1 == key))

/-- Insert an entry into a key-sorted local-property association list. -/
def insertU (e : String × String) : List (String × String) → List (String × String)
  | [] => [e]
  | f :: rest => if e.1 < f.1 then e :: f :: rest else f :: insertU e rest

/-- Set (`some v`) or clear (`none`) a user property, keeping the list key-sorted. -/
def setU (l : List (String × String)) (key : String) : Option String → List (String × String)
  | none => eraseU l key
  | some v => insertU (key, v) (eraseU l key)

/-- A key-sorted (hence duplicate-free) local-property association list. -/
def sortedU (l : List (String × String)) : Prop :=
  l.Pairwise (fun a b => a.1 < b.1)

/-- Modelled from the spec (section 3, data model): the state of one live
dataset.  Only local property values are stored; effective values and the
source tags are derived, mirroring ZFS inheritance. -/
structure Fs where
  canmountL : Option String
  mountpointL : Option String
  bootfsL : Option String
  userProps : List (String × String)
  origin : Option (Path × String)
  mounted : Bool
  lastUsed : Nat
deriving DecidableEq, Repr

/-- Modelled from the spec: the state of one snapshot (`parent@name`),
with its creation time. -/
structure SnapE where
  parent : Path
  name : String
  creation : Nat
deriving DecidableEq, Repr

/-- Modelled from the spec: the ZFS state the scanner observes — all live
datasets and all snapshots. -/
structure ZState where
  fss : List (Path × Fs)
  snaps : List SnapE
deriving DecidableEq, Repr

/-- Key of a snapshot entry. -/
def snapKey (e : SnapE) : Path × String := (e.parent, e.name)

/-- Look up a live dataset by path. -/
def getFs : List (Path × Fs) → Path → Option Fs
  | [], _ => none
  | (q, f) :: rest, p => if q = p then some f else getFs rest p

/-- Rewrite the record of one live dataset in place. -/
def updFs : List (Path × Fs) → Path → (Fs → Fs) → List (Path × Fs)
  | [], _, _ => []
  | (q, f) :: rest, p, g =>
    if q = p then (q, g f) :: updFs rest p g else (q, f) :: updFs rest p g

/-- Local value of a named property on one dataset record. -/
def getLocal (f : Fs) (name : String) : Option String :=
  if name = CanmountProp then f.canmountL
  else if name = BootfsProp then f.bootfsL
  else if name = MountPointProp then f.mountpointL
  else getU f.userProps name

/-- Set or clear the local value of a named property on one dataset record. -/
def setLocal (f : Fs) (name : String) (v : Option String) : Fs :=
  if name = CanmountProp then { f with canmountL := v }
  else if name = BootfsProp then { f with bootfsL := v }
  else if name = MountPointProp then { f with mountpointL := v }
  else { f with userProps := setU f.userProps name v }

/-- Modelled from the spec (section 3): the source tag of a property. -/
inductive Src where
  | localSrc
  | inheritedSrc
  | defaultSrc
  | noneSrc
deriving DecidableEq, Repr

/-- Modelled from the spec: the source of a property on a live dataset —
local when set on the dataset itself, inherited when a strict ancestor has a
local value, otherwise a ZFS default (for native properties) or absent. -/
def srcOf (s : ZState) (p : Path) (name : String) : Src :=
  match getFs s.fss p with
  | none => .noneSrc
  | some f =>
    if (getLocal f name).isSome then .localSrc
    else if s.fss.any (fun e => strictUnder e.1 p && (getLocal e.2 name).isSome) then .inheritedSrc
    else if name = CanmountProp ∨ name = BootfsProp ∨ name = MountPointProp then .defaultSrc
    else .noneSrc

/-- Whether a string contains a given character. -/
def containsChar (s : String) (c : Char) : Bool := s.data.contains c

/-- Nearest local value of a property along the ancestor chain of a path
(the longest prefix, the path itself included, carrying a local value). -/
def effOpt (s : ZState) (get : Fs → Option String) (p : Path) : Option String :=
  p.inits.reverse.findSome? (fun q => (getFs s.fss q).bind get)

/-- Effective canmount value (ZFS default `on`). -/
def effCanmount (s : ZState) (p : Path) : String :=
  (effOpt s (fun f => f.canmountL) p).getD "on"

/-- Effective bootfs value (default `no`). -/
def effBootfs (s : ZState) (p : Path) : String :=
  (effOpt s (fun f => f.bootfsL) p).getD "no"

/-- Effective value of a user property (absent renders as the empty string). -/
def effUserProp (s : ZState) (p : Path) (name : String) : String :=
  (effOpt s (fun f => getU f.userProps name) p).getD ""

/-- Effective mountpoint: the nearest local mountpoint with the remaining
path segments appended, mirroring ZFS mountpoint inheritance. -/
def effMp (s : ZState) (p : Path) : String :=
  match p.inits.reverse.findSome?
      (fun q => ((getFs s.fss q).bind (fun f => f.mountpointL)).map
        (fun m => (m, p.drop q.length))) with
  | some (m, rest) => rest.foldl (fun a seg => a ++ "/" ++ seg) m
  | none => p.foldl (fun a seg => a ++ "/" ++ seg) ""

/-- Modelled from the spec (section 3): one record of the scanner's output,
with the effective values of the tracked property set. -/
structure DsView where
  name : String
  mountpoint : String
  canmount : String
  mounted : Bool
  bootfs : String
  lastUsed : Nat
  bootfsDatasets : String
  origin : String
deriving DecidableEq, Repr

/-- Render a path as a `/`-separated name. -/
def renderPath (p : Path) : String := String.intercalate "/" p

/-- Render a dataset or snapshot name. -/
def renderName (p : Path) : Option String → String
  | none => renderPath p
  | some sn => renderPath p ++ "@" ++ sn

/-- Render an origin pointer. -/
def renderOrigin : Option (Path × String) → String
  | none => ""
  | some k => renderName k.1 (some k.2)

/-- Scanner view of one live dataset. -/
def viewFs (s : ZState) (e : Path × Fs) : DsView :=
  { name := renderPath e.1
    mountpoint := effMp s e.1
    canmount := effCanmount s e.1
    mounted := e.2.mounted
    bootfs := effBootfs s e.1
    lastUsed := e.2.lastUsed
    bootfsDatasets := effUserProp s e.1 BootfsDatasetsProp
    origin := renderOrigin e.2.origin }

/-- Scanner view of one snapshot (canmount is not applicable, mountpoint and
properties are inherited from the parent, last-used is the creation time). -/
def viewSnap (s : ZState) (e : SnapE) : DsView :=
  { name := renderName e.parent (some e.name)
    mountpoint := effMp s e.parent
    canmount := "-"
    mounted := false
    bootfs := effBootfs s e.parent
    lastUsed := e.creation
    bootfsDatasets := effUserProp s e.parent BootfsDatasetsProp
    origin := "" }

/-- Modelled from the spec (section 4.2): the scan — a flat sequence of
records covering every live dataset and every snapshot.  The scanner is pure;
it is a function of the ZFS state only. -/
def scanState (s : ZState) : List DsView :=
  s.fss.map (viewFs s) ++ s.snaps.map (viewSnap s)

/-- Modelled from the spec (sections 4.5 and 9): the tagged inverse steps the
transaction manager pushes onto the revert stack. -/
inductive UndoStep where
  | destroySnap (parent : Path) (name : String)
  | destroyFs (p : Path)
  | promoteFs (p : Path)
  | restoreProp (p : Path) (name : String) (prior : Option String)
deriving DecidableEq, Repr

/-- Modelled from the spec (sections 4.5 and 6): the core — the ZFS state,
the transactions flag fixed at construction, the revert stack, and a clock
stamping snapshot creation times. -/
structure Zfs where
  state : ZState
  transactional : Bool
  stack : List UndoStep
  clock : Nat
deriving DecidableEq, Repr

/-- Modelled from the spec (section 6): the constructor; `withTrans` is the
`transactions` option. -/
def Zfs.new (withTrans : Bool) (st : ZState) (clock : Nat) : Zfs :=
  ⟨st, withTrans, [], clock⟩

/-- The scan verb, as the tests use it: the scanner view of the current state. -/
def Zfs.scan (z : Zfs) : List DsView := scanState z.state

/-- Normalization the tests apply before comparing scans: snapshot creation
times are replaced by the magic constant. -/
def normView (v : DsView) : DsView :=
  if containsChar v.name '@' = true then { v with lastUsed := currentMagicTime } else v

/-- A scan with snapshot times normalized to the magic constant. -/
def Zfs.normScan (z : Zfs) : List DsView := z.scan.map normView

/-- Paths of a dataset and all its strict descendants, in scan order. -/
def subtreePaths (s : ZState) (p : Path) : List Path :=
  p :: (s.fss.map Prod.fst).filter (fun q => strictUnder p q)

/-- Modelled from the spec (section 4.4, Snapshot): validate, then create one
snapshot per target dataset; the inverse destroys each created snapshot. -/
def computeSnapshot (z : Zfs) (sn : String) (d : DsName) (recursive : Bool) :
    Except ZErr (ZState × List UndoStep × Nat) :=
  if d.snap.isSome then .error .invalidArgument
  else match getFs z.state.fss d.path with
  | none => .error .notFound
  | some _ =>
    if sn = "" ∨ containsChar sn '@' = true then .error .invalidArgument
    else
      let targets := if recursive then subtreePaths z.state d.path else [d.path]
      if ∃ q ∈ targets, ∃ e ∈ z.state.snaps, snapKey e = (q, sn) then .error .alreadyExists
      else
        .ok ({ z.state with snaps := targets.map (fun q => ⟨q, sn, z.clock⟩) ++ z.state.snaps },
             targets.map (fun q => .destroySnap q sn),
             z.clock + 1)

/-- Modelled from the spec (section 4.4, Clone): canmount rewrite on a clone —
`on` becomes `noauto`, `off` and `noauto` are kept. -/
def canmountRw (v : String) : String := if v = "on" then "noauto" else v

/-- Modelled from the spec (section 4.4, Clone): the record of a created
clone — origin points at the source snapshot, canmount is set locally to the
rewritten effective source value, a literal mountpoint is preserved only when
the source's was local, and the clone starts unmounted. -/
def mkCloneFs (s : ZState) (clk : Nat) (src : Path × Fs) (sn : String) : Fs :=
  { canmountL := some (canmountRw (effCanmount s src.1))
    mountpointL := src.2.mountpointL
    bootfsL := src.2.bootfsL
    userProps := src.2.userProps
    origin := some (src.1, sn)
    mounted := false
    lastUsed := clk }

/-- Modelled from the spec (section 4.4, Clone): the source datasets of a
clone — the snapshotted dataset itself and, recursively, every descendant
that has the same-named snapshot; with `skipBootfs`, branches rooted at a
descendant whose effective bootfs is `yes` are skipped. -/
def cloneSources (s : ZState) (p : Path) (sn : String) (skipBootfs recursive : Bool) :
    List (Path × Fs) :=
  if recursive then
    s.fss.filter (fun e =>
      isUnder p e.1 &&
      decide (∃ se ∈ s.snaps, snapKey se = (e.1, sn)) &&
      !(skipBootfs && decide (∃ r ∈ s.fss, strictUnder p r.1 = true ∧
          isUnder r.1 e.1 = true ∧ effBootfs s r.1 = "yes")))
  else s.fss.filter (fun e => e.1 == p)

/-- Target path of one cloned dataset: the clone root followed by the source's
path below the snapshotted dataset. -/
def cloneTarget (p tgtRoot q : Path) : Path := tgtRoot ++ q.drop p.length

/-- Modelled from the spec (section 4.4, Clone): validation — the argument
must name an existing snapshot, a suffix is required, the snapshotted dataset
must not be a pool root, a recursive clone requires the snapshot on every
intermediate (non-leaf) descendant, and every target must be fresh; then the
clones are created, the inverse destroying each of them. -/
def computeClone (z : Zfs) (d : DsName) (sfx : String) (skipBootfs recursive : Bool) :
    Except ZErr (ZState × List UndoStep × Nat) :=
  match d.snap with
  | none => .error .invalidArgument
  | some sn =>
    let p := d.path
    if sfx = "" then .error .invalidArgument
    else if ¬ ∃ e ∈ z.state.snaps, snapKey e = (p, sn) then .error .notFound
    else if p.length < 2 then .error .invalidArgument
    else if recursive = true ∧ ∃ e ∈ z.state.fss, strictUnder p e.1 = true ∧
        (∃ c ∈ z.state.fss, strictUnder e.1 c.1 = true) ∧
        ¬ ∃ se ∈ z.state.snaps, snapKey se = (e.1, sn) then .error .missingIntermediate
    else
      let tgtRoot := replaceLast p (stemOf (lastSeg p) ++ "_" ++ sfx)
      let sources := cloneSources z.state p sn skipBootfs recursive
      if ∃ src ∈ sources, ∃ e ∈ z.state.fss, e.1 = cloneTarget p tgtRoot src.1 then
        .error .alreadyExists
      else
        .ok ({ z.state with fss :=
                 sources.map (fun src => (cloneTarget p tgtRoot src.1, mkCloneFs z.state z.clock src sn))
                 ++ z.state.fss },
             sources.map (fun src => .destroyFs (cloneTarget p tgtRoot src.1)),
             z.clock + 1)

/-- True when an origin pointer names a snapshot of `x` or of `p`. -/
def piBad : Option (Path × String) → Path → Path → Bool
  | none, _, _ => false
  | some k, x, p => decide (k.1 = x) || decide (k.1 = p)

/-- Modelled from the spec (section 4.1, adapter promote): the state change of
one promotion step — the promoted dataset `x` takes over `π` (its former
parent's origin), the former parent `p` becomes a clone of `x@sn`, the
snapshot `p@sn` is re-homed to `x`, and every other origin pointer naming
`p@sn` is rewritten to `x@sn`. -/
def pSwap (x p : Path) (sn : String) (pi : Option (Path × String)) (s : ZState) : ZState :=
  { fss := s.fss.map (fun e =>
      if e.1 = x then (e.1, { e.2 with origin := pi })
      else if e.1 = p then (e.1, { e.2 with origin := some (x, sn) })
      else if e.2.origin = some (p, sn) then (e.1, { e.2 with origin := some (x, sn) })
      else e),
    snaps := s.snaps.map (fun e =>
      if snapKey e = (p, sn) then { e with parent := x } else e) }

/-- Modelled from the spec (section 4.1, adapter promote): one promotion step
on a clone `x` with origin `p@sn` — the origin direction is reversed: `x`
takes over `p`'s old origin, `p`'s origin becomes `x@sn`, the snapshot
`p@sn` is re-homed to `x`, and every other origin pointer naming `p@sn` is
rewritten to `x@sn`. -/
def pOne (x : Path) (s : ZState) : Except ZErr (ZState × Path) :=
  match getFs s.fss x with
  | none => .error .notFound
  | some fx =>
    match fx.origin with
    | none => .error .invalidArgument
    | some (p, sn) =>
      if ¬ ∃ e ∈ s.snaps, snapKey e = (p, sn) then .error .notFound
      else if ∃ e ∈ s.snaps, snapKey e = (x, sn) then .error .alreadyExists
      else if p = x then .error .invalidArgument
      else match getFs s.fss p with
      | none => .error .notFound
      | some fp =>
        if piBad fp.origin x p then .error .invalidArgument
        else .ok (pSwap x p sn fp.origin s, p)

/-- Modelled from the spec (section 4.4, Promote): promote each target in
turn, skipping targets that are already promoted, collecting the undo paths
(the original parents) in step order. -/
def pFold (s : ZState) : List Path → Except ZErr (ZState × List Path)
  | [] => .ok (s, [])
  | x :: xs =>
    match getFs s.fss x with
    | none => .error .notFound
    | some fx =>
      match fx.origin with
      | none => pFold s xs
      | some _ =>
        match pOne x s with
        | .error e => .error e
        | .ok (s', pp) =>
          match pFold s' xs with
          | .error e => .error e
          | .ok (s'', ps) => .ok (s'', pp :: ps)

/-- Modelled from the spec (section 4.4, Promote): a dataset with no origin
is already promoted — a no-op without error; otherwise the source lineage
must have the snapshot on every intermediate level, and the dataset is
promoted together with each descendant whose origin points outside the
subtree; each completed step records its inverse. -/
def computePromote (z : Zfs) (d : DsName) :
    Except ZErr (ZState × List UndoStep × Nat) :=
  if d.snap.isSome then .error .invalidArgument
  else match getFs z.state.fss d.path with
  | none => .error .notFound
  | some f =>
    match f.origin with
    | none => .ok (z.state, [], z.clock)
    | some (p, sn) =>
      if ∃ e ∈ z.state.fss, strictUnder p e.1 = true ∧
          (∃ c ∈ z.state.fss, strictUnder e.1 c.1 = true) ∧
          ¬ ∃ se ∈ z.state.snaps, snapKey se = (e.1, sn) then .error .missingIntermediate
      else
        let targets := d.path :: (z.state.fss.filter (fun e =>
          strictUnder d.path e.1 &&
          (e.2.origin.elim false (fun k => !(isUnder d.path k.1))))).map Prod.fst
        match pFold z.state targets with
        | .error e => .error e
        | .ok (s', ps) => .ok (s', ps.map .promoteFs, z.clock)

/-- True when an origin pointer names a snapshot under path `p`. -/
def originInSubB : Option (Path × String) → Path → Bool
  | none, _ => false
  | some k, p => isUnder p k.1

/-- True when an origin pointer names the snapshot `q@sn` for some `q`
under path `p`. -/
def originSnapB : Option (Path × String) → Path → String → Bool
  | none, _, _ => false
  | some k, p, sn => isUnder p k.1 && k.2 == sn

/-- Modelled from the spec (sections 4.4 Destroy and 4.5) and pinned by the
test suite: destroy refuses to run on a transactional core; destroying a live
dataset removes its subtree with all snapshots, blocked when a live dataset
outside the subtree has an origin inside it; destroying a snapshot removes
the same-named snapshot across the subtree, blocked when any clone depends
on one of them.  Destroy records no inverse. -/
def computeDestroy (z : Zfs) (d : DsName) :
    Except ZErr (ZState × List UndoStep × Nat) :=
  if z.transactional then .error .transactionViolation
  else match d.snap with
  | none =>
    match getFs z.state.fss d.path with
    | none => .error .notFound
    | some _ =>
      if z.state.fss.any (fun e => originInSubB e.2.origin d.path) then
        .error .hasClones
      else
        .ok ({ fss := z.state.fss.filter (fun e => !(isUnder d.path e.1)),
               snaps := z.state.snaps.filter (fun e => !(isUnder d.path e.parent)) },
             [], z.clock)
  | some sn =>
    if ¬ ∃ e ∈ z.state.snaps, snapKey e = (d.path, sn) then .error .notFound
    else if z.state.fss.any (fun e => originSnapB e.2.origin d.path sn) then .error .hasClones
    else
      .ok ({ z.state with snaps :=
               z.state.snaps.filter (fun e => !(isUnder d.path e.parent && e.name == sn)) },
           [], z.clock)

/-- Modelled from the spec (section 4.3): the set-property verb accepts the
authorized natives canmount and bootfs plus any user property. -/
def authorizedSet (name : String) : Prop :=
  name = CanmountProp ∨ name = BootfsProp ∨ containsChar name ':' = true

instance (name : String) : Decidable (authorizedSet name) := by
  unfold authorizedSet
  infer_instance

/-- Modelled from the spec (section 4.4, SetProperty): the property must be
authorized, the dataset must exist and not be a snapshot, and an inherited
source demands force; an empty value clears (inherits), otherwise the value
becomes local; the inverse restores the prior local value. -/
def computeSetProperty (z : Zfs) (name value : String) (d : DsName) (force : Bool) :
    Except ZErr (ZState × List UndoStep × Nat) :=
  if ¬ authorizedSet name then .error .propertyPolicy
  else match d.snap with
  | some _ => .error .propertyPolicy
  | none =>
    match getFs z.state.fss d.path with
    | none => .error .notFound
    | some f =>
      if srcOf z.state d.path name = .inheritedSrc ∧ force = false then .error .propertyPolicy
      else
        let v := if value = "" then none else some value
        .ok ({ z.state with fss := updFs z.state.fss d.path (fun g => setLocal g name v) },
             [.restoreProp d.path name (getLocal f name)], z.clock)

/-- One verb invocation. -/
inductive Call where
  | snapshot (snapName : String) (d : DsName) (recursive : Bool)
  | clone (d : DsName) (sfx : String) (skipBootfs recursive : Bool)
  | promote (d : DsName)
  | destroy (d : DsName)
  | setProperty (name value : String) (d : DsName) (force : Bool)
deriving DecidableEq, Repr

/-- Dispatch a verb to its compute function. -/
def compute (z : Zfs) : Call → Except ZErr (ZState × List UndoStep × Nat)
  | .snapshot sn d r => computeSnapshot z sn d r
  | .clone d sfx sb r => computeClone z d sfx sb r
  | .promote d => computePromote z d
  | .destroy d => computeDestroy z d
  | .setProperty n v d f => computeSetProperty z n v d f

/-- Modelled from the spec (section 4.5): committing a successful verb —
the new state is installed and, on a transactional core, the verb's inverse
steps are pushed onto the revert stack (most recent first); without
transactions the inverses are discarded. -/
def commit (z : Zfs) (r : ZState × List UndoStep × Nat) : Zfs :=
  { state := r.1
    transactional := z.transactional
    stack := if z.transactional then r.2.1.reverse ++ z.stack else z.stack
    clock := r.2.2 }

/-- Modelled from the spec (section 4.4): every verb validates against the
current state and returns an error leaving the state untouched, or commits. -/
def exec (z : Zfs) (c : Call) : Option ZErr × Zfs :=
  match compute z c with
  | .error e => (some e, z)
  | .ok r => (none, commit z r)

/-- Run a sequence of verbs, keeping only the resulting core. -/
def execList (z : Zfs) (cs : List Call) : Zfs :=
  cs.foldl (fun z c => (exec z c).2) z

/-- Modelled from the spec (section 4.5): applying one inverse step,
best-effort — a step whose target is gone is skipped. -/
def applyUndo (s : ZState) : UndoStep → ZState
  | .destroySnap p sn => { s with snaps := s.snaps.eraseP (fun e => decide (snapKey e = (p, sn))) }
  | .destroyFs p => { s with fss := s.fss.eraseP (fun e => decide (e.1 = p)) }
  | .promoteFs p =>
    match pOne p s with
    | .ok r => r.1
    | .error _ => s
  | .restoreProp p n prior => { s with fss := updFs s.fss p (fun f => setLocal f n prior) }

/-- Apply a list of inverse steps front to back. -/
def applyUndos (steps : List UndoStep) (s : ZState) : ZState :=
  steps.foldl applyUndo s

/-- Modelled from the spec (section 4.5): Cancel pops and applies each
inverse in LIFO order; on completion the stack is empty. -/
def Zfs.cancel (z : Zfs) : Zfs :=
  { z with state := applyUndos z.stack z.state, stack := [] }

/-- Modelled from the spec (section 4.5): Done discards the stack; the
transaction is committed by acknowledgment, not by further I/O. -/
def Zfs.done (z : Zfs) : Zfs := { z with stack := [] }

/-- Unique live-dataset names (spec section 3, invariants). -/
def WFfss (s : ZState) : Prop := (s.fss.map Prod.fst).Nodup

/-- An origin pointer refers to an existing snapshot. -/
def originOk (s : ZState) : Option (Path × String) → Prop
  | none => True
  | some k => ∃ se ∈ s.snaps, snapKey se = k

instance (s : ZState) (o : Option (Path × String)) : Decidable (originOk s o) := by
  unfold originOk
  match o with
  | none => exact inferInstance
  | some k => exact inferInstance

/-- Every clone's origin refers to an existing snapshot (spec section 3). -/
def WForigins (s : ZState) : Prop := ∀ e ∈ s.fss, originOk s e.2.origin

/-- Every dataset's local user properties are key-sorted. -/
def WFuser (s : ZState) : Prop := ∀ e ∈ s.fss, sortedU e.2.userProps

/-- Well-formed ZFS state. -/
def WF (s : ZState) : Prop := WFfss s ∧ WForigins s ∧ WFuser s

instance (s : ZState) : Decidable (WF s) := by
  unfold WF WFfss WForigins WFuser sortedU
  infer_instance

/-- Invariant 4 of the spec (section 8): no clone of a dataset whose
effective canmount is `on` itself has effective canmount `on`. -/
def canmountInvariant (s : ZState) : Prop :=
  ∀ e ∈ s.fss, ∀ e2 ∈ s.fss, e2.2.origin.map Prod.fst = some e.1 →
    effCanmount s e.1 = "on" → ¬ effCanmount s e2.1 = "on"

instance (s : ZState) : Decidable (canmountInvariant s) := by
  unfold canmountInvariant
  infer_instance

/-- An empty dataset record: no local properties, no origin, unmounted. -/
def fsE : Fs := ⟨none, none, none, [], none, false, 0⟩

/-- One-pool, one-dataset state used by concrete witnesses. -/
def stW1 : ZState := ⟨[(["rpool"], fsE)], []⟩

/-- A non-transactional core over `stW1`. -/
def zW1 : Zfs := Zfs.new false stW1 5

/-- A failing verb call: the empty snapshot name is invalid. -/
def cW1 : Call := .snapshot "" ⟨["rpool"], none⟩ false

/-- A transactional core mid-transaction (non-empty revert stack). -/
def zW4 : Zfs := ⟨stW1, true, [.destroySnap ["rpool"] "s0"], 5⟩

/-- The dataset destroyed in the transaction-violation witness. -/
def dW4 : DsName := ⟨["rpool"], none⟩

/-- State with a dataset and a child that already has snapshot `s1`. -/
def stW10 : ZState := ⟨[(["rpool"], fsE), (["rpool", "a"], fsE)], [⟨["rpool", "a"], "s1", 3⟩]⟩

/-- A non-transactional core over `stW10`. -/
def zW10 : Zfs := Zfs.new false stW10 9

/-- State whose only dataset has a local bootfs value. -/
def stC5 : ZState := ⟨[(["rpool"], { fsE with bootfsL := some "yes" })], []⟩

/-- A transactional core over `stC5`. -/
def zC5 : Zfs := Zfs.new true stC5 7

/-- First step of the do-then-undo-by-hand transaction. -/
def c51 : Call := .setProperty BootfsProp "no" ⟨["rpool"], none⟩ false

/-- Second step, setting the property back to its original value. -/
def c52 : Call := .setProperty BootfsProp "yes" ⟨["rpool"], none⟩ false

/-- State where `rpool` holds a local mountpoint which `rpool/a` inherits. -/
def stC3x : ZState := ⟨[(["rpool"], { fsE with mountpointL := some "/r" }), (["rpool", "a"], fsE)], []⟩

/-- A non-transactional core over `stC3x`. -/
def zC3x : Zfs := Zfs.new false stC3x 3

/-- State where `rpool` holds a local bootfs-datasets user property which
`rpool/a` inherits. -/
def stC3w : ZState :=
  ⟨[(["rpool"], { fsE with userProps := [(BootfsDatasetsProp, "rpool/ROOT")] }), (["rpool", "a"], fsE)], []⟩

/-- A non-transactional core over `stC3w`. -/
def zC3w : Zfs := Zfs.new false stC3w 3

/-- State with a snapshot of `rpool/a` and a live clone of that snapshot. -/
def stC8 : ZState :=
  ⟨[(["rpool"], fsE), (["rpool", "a"], fsE),
    (["rpool", "b"], { fsE with origin := some (["rpool", "a"], "s") })],
   [⟨["rpool", "a"], "s", 2⟩]⟩

/-- A non-transactional core over `stC8`. -/
def zC8 : Zfs := Zfs.new false stC8 7

/-- Initial state of the canmount-invariant counterexample: a pool `p` and
a dataset `p/a_1` with local `canmount=on`. -/
def stC6 : ZState := ⟨[(["p"], fsE), (["p", "a_1"], { fsE with canmountL := some "on" })], []⟩

/-- A non-transactional core over `stC6`. -/
def zC6 : Zfs := Zfs.new false stC6 0

/-- After snapshotting `p/a_1@s`. -/
def zC6a : Zfs := (exec zC6 (.snapshot "s" ⟨["p", "a_1"], none⟩ false)).2

/-- After cloning `p/a_1@s` into `p/a_2` (clone canmount becomes noauto). -/
def zC6b : Zfs := (exec zC6a (.clone ⟨["p", "a_1"], some "s"⟩ "2" false false)).2

/-- After forcing `canmount=on` back onto the clone through set-property. -/
def zC6c : Zfs := (exec zC6b (.setProperty CanmountProp "on" ⟨["p", "a_2"], none⟩ false)).2

/-- The clone call of the canmount-rewrite witness. -/
def cW6 : Call := .clone ⟨["rpool", "a"], some "s1"⟩ "9" false false

/-- The committed result of that clone call. -/
def resW6 : ZState × List UndoStep × Nat :=
  (compute zW10 cW6).toOption.getD (⟨[], []⟩, [], 0)

/-- Subtree for the recursive-clone witness: `r/u` with a non-leaf child
`var`, its child `var/lib`, and a leaf `opt`; the snapshot `s` exists
everywhere except on the leaf `opt`. -/
def stW7 : ZState :=
  ⟨[(["r"], fsE), (["r", "u"], fsE), (["r", "u", "var"], fsE),
    (["r", "u", "var", "lib"], fsE), (["r", "u", "opt"], fsE)],
   [⟨["r", "u"], "s", 1⟩, ⟨["r", "u", "var"], "s", 1⟩, ⟨["r", "u", "var", "lib"], "s", 1⟩]⟩

/-- A non-transactional core over `stW7`. -/
def zW7 : Zfs := Zfs.new false stW7 4

/-- The recursive clone call of the recursive-clone witness. -/
def cW7 : Call := .clone ⟨["r", "u"], some "s"⟩ "2" false true

/-- Initial state for the transaction-revert witness: a pool with a root
dataset hierarchy carrying local mountpoint and canmount values. -/
def stC2 : ZState :=
  ⟨[(["rpool"], { fsE with mountpointL := some "/r", canmountL := some "off" }),
    (["rpool", "ROOT"], fsE),
    (["rpool", "ROOT", "ubuntu_1234"], { fsE with canmountL := some "on" }),
    (["rpool", "ROOT", "ubuntu_1234", "var"], fsE)], []⟩

/-- The transactional verb sequence of the revert witness: recursive
snapshot, recursive clone, promote of the clone, a property set, and a
destroy that is rejected inside the transaction. -/
def csC2 : List Call :=
  [.snapshot "snap1" ⟨["rpool", "ROOT", "ubuntu_1234"], none⟩ true,
   .clone ⟨["rpool", "ROOT", "ubuntu_1234"], some "snap1"⟩ "5678" false true,
   .promote ⟨["rpool", "ROOT", "ubuntu_5678"], none⟩,
   .setProperty BootfsProp "no" ⟨["rpool", "ROOT", "ubuntu_1234"], none⟩ false,
   .destroy ⟨["rpool", "ROOT", "ubuntu_1234"], none⟩]

end Zsys

namespace Zsys

/-- C1: every verb call that returns an error on a core with transactions
disabled is a no-op — the scan after the call equals the scan before it. -/
theorem noop_on_error (z : Zfs) (c : Call) (_htr : z.transactional = false)
    (he : (exec z c).1.isSome) : (exec z c).2.scan = z.scan := by
  unfold exec at *
  cases h : compute z c with
  | error e => simp [h]
  | ok r => rw [h] at he; simp at he

/-- Witness for C1 at a concrete failing snapshot call. -/
theorem noop_on_error_witness :
    zW1.transactional = false ∧ (exec zW1 cW1).1.isSome = true ∧
      (exec zW1 cW1).2.scan = zW1.scan :=
  ⟨rfl, by decide, noop_on_error zW1 cW1 rfl (by decide)⟩

/-- C4: destroy on a core constructed with transactions enabled is rejected
with a transaction-violation error and the scan is unchanged (in particular
when the revert stack is non-empty). -/
theorem destroy_rejected_in_transaction (z : Zfs) (d : DsName)
    (htr : z.transactional = true) :
    (exec z (.destroy d)).1 = some ZErr.transactionViolation ∧
      (exec z (.destroy d)).2.scan = z.scan := by
  unfold exec compute computeDestroy
  rw [htr]
  simp

/-- Witness for C4 on a transactional core with a non-empty revert stack. -/
theorem destroy_rejected_in_transaction_witness :
    zW4.transactional = true ∧ zW4.stack ≠ [] ∧
      (exec zW4 (.destroy dW4)).1 = some ZErr.transactionViolation ∧
      (exec zW4 (.destroy dW4)).2.scan = zW4.scan :=
  ⟨rfl, by decide, (destroy_rejected_in_transaction zW4 dW4 rfl).1,
    (destroy_rejected_in_transaction zW4 dW4 rfl).2⟩

/-- C9: promoting a live dataset that has no origin is a no-op without an
error, so promoting it twice equals promoting it once. -/
theorem promote_idempotent_when_promoted (z : Zfs) (d : DsName) (f : Fs)
    (hs : d.snap = none) (hf : getFs z.state.fss d.path = some f)
    (ho : f.origin = none) :
    exec z (.promote d) = (none, z) ∧
      exec (exec z (.promote d)).2 (.promote d) = exec z (.promote d) := by
  have h1 : exec z (.promote d) = (none, z) := by
    simp only [exec, compute, computePromote, hf, hs, ho, Option.isSome_none,
      Bool.false_eq_true, if_false]
    simp [commit]
  refine ⟨h1, ?_⟩
  rw [h1]
  exact h1

/-- Witness for C9 at a concrete promoted dataset. -/
theorem promote_idempotent_when_promoted_witness :
    exec zW1 (.promote ⟨["rpool"], none⟩) = (none, zW1) ∧
      exec (exec zW1 (.promote ⟨["rpool"], none⟩)).2 (.promote ⟨["rpool"], none⟩) =
        exec zW1 (.promote ⟨["rpool"], none⟩) :=
  promote_idempotent_when_promoted zW1 ⟨["rpool"], none⟩ fsE rfl (by decide) rfl

/-- C10: a non-recursive snapshot of a live dataset succeeds even when a
strict descendant already has a same-named snapshot; the call fails with
already-exists exactly when the dataset itself has that snapshot. -/
theorem snapshot_nonrecursive_ignores_descendants (z : Zfs) (d : DsName)
    (sn : String) (f : Fs) (q : Path)
    (hs : d.snap = none) (hf : getFs z.state.fss d.path = some f)
    (hn : ¬ (sn = "" ∨ containsChar sn '@' = true))
    (_hq : strictUnder d.path q = true)
    (_hqs : ∃ e ∈ z.state.snaps, snapKey e = (q, sn)) :
    ((¬ ∃ e ∈ z.state.snaps, snapKey e = (d.path, sn)) →
        (exec z (.snapshot sn d false)).1 = none) ∧
      ((∃ e ∈ z.state.snaps, snapKey e = (d.path, sn)) →
        (exec z (.snapshot sn d false)).1 = some ZErr.alreadyExists) := by
  simp only [exec, compute, computeSnapshot, hf, hs, Option.isSome_none,
    Bool.false_eq_true, if_false, if_neg hn, List.mem_singleton, exists_eq_left]
  constructor
  · intro hnot
    rw [if_neg hnot]
  · intro hyes
    rw [if_pos hyes]

/-- Witness for C10: the child `rpool/a` already has `s1`, yet the
non-recursive snapshot of `rpool` succeeds. -/
theorem snapshot_nonrecursive_ignores_descendants_witness :
    (¬ ∃ e ∈ stW10.snaps, snapKey e = (["rpool"], "s1")) ∧
      (exec zW10 (.snapshot "s1" ⟨["rpool"], none⟩ false)).1 = none :=
  ⟨by decide,
    (snapshot_nonrecursive_ignores_descendants zW10 ⟨["rpool"], none⟩ "s1" fsE
        (["rpool", "a"]) rfl (by decide) (by decide) (by decide)
        ⟨⟨["rpool", "a"], "s1", 3⟩, by decide, rfl⟩).1
      (by decide)⟩

/-- C5 (amended): Done discards the revert stack and performs no further
I/O — after any sequence of verbs, the scan after Done equals the scan
after the last verb. -/
theorem done_persists (z : Zfs) (cs : List Call) :
    ((execList z cs).done).scan = (execList z cs).scan ∧
      ((execList z cs).done).stack = [] :=
  ⟨rfl, rfl⟩

/-- Counterexample for C5 as stated: in a transaction whose second verb
undoes the first by hand, some verb changed the state, yet the scan after
Done equals the pre-transaction scan. -/
theorem done_differs_cex :
    (exec zC5 c51).1 = none ∧ (exec (exec zC5 c51).2 c52).1 = none ∧
      ¬ (exec zC5 c51).2.scan = zC5.scan ∧
      ((execList zC5 [c51, c52]).done).scan = zC5.scan := by
  decide

theorem getFs_updFs_self (l : List (Path × Fs)) (p : Path) (g : Fs → Fs) :
    getFs (updFs l p g) p = (getFs l p).map g := by
  induction l with
  | nil => rfl
  | cons e rest ih =>
    obtain ⟨q, b⟩ := e
    by_cases hq : q = p
    · subst hq
      simp [updFs, getFs]
    · simp [updFs, getFs, hq, ih]

theorem getFs_updFs_ne (l : List (Path × Fs)) (p q : Path) (g : Fs → Fs)
    (hq : q ≠ p) : getFs (updFs l p g) q = getFs l q := by
  induction l with
  | nil => rfl
  | cons e rest ih =>
    obtain ⟨a, b⟩ := e
    by_cases ha : a = p
    · subst ha
      have hne : ¬ a = q := fun h => hq h.symm
      simp [updFs, getFs, hne, ih]
    · simp [updFs, getFs, ha, ih]

theorem eraseU_keys_ne (l : List (String × String)) (k : String) :
    ∀ e ∈ eraseU l k, e.1 ≠ k := by
  intro e he
  unfold eraseU at he
  have := List.of_mem_filter he
  simpa using this

theorem getU_insertU_self (l : List (String × String)) (k v : String)
    (h : ∀ e ∈ l, e.1 ≠ k) : getU (insertU (k, v) l) k = some v := by
  induction l with
  | nil => simp [insertU, getU]
  | cons f rest ih =>
    by_cases hlt : k < f.1
    · simp [insertU, hlt, getU]
    · have hf : f.1 ≠ k := h f (List.mem_cons_self f rest)
      simp only [insertU, if_neg hlt]
      simp only [getU, if_neg hf]
      exact ih (fun e he => h e (List.mem_cons_of_mem f he))

theorem getU_eraseU_self (l : List (String × String)) (k : String) :
    getU (eraseU l k) k = none := by
  induction l with
  | nil => rfl
  | cons f rest ih =>
    obtain ⟨a, b⟩ := f
    by_cases hf : a = k
    · simpa [eraseU, List.filter_cons, hf] using ih
    · simpa [eraseU, List.filter_cons, hf, getU] using ih

theorem getLocal_setLocal_self (f : Fs) (name : String) (v : Option String) :
    getLocal (setLocal f name v) name = v := by
  by_cases h1 : name = CanmountProp
  · subst h1
    simp [getLocal, setLocal]
  · by_cases h2 : name = BootfsProp
    · subst h2
      simp [getLocal, setLocal, h1]
    · by_cases h3 : name = MountPointProp
      · subst h3
        simp [getLocal, setLocal, h1, h2]
      · simp only [getLocal, setLocal, if_neg h1, if_neg h2, if_neg h3]
        cases v with
        | none => exact getU_eraseU_self f.userProps name
        | some w =>
          exact getU_insertU_self (eraseU f.userProps name) name w (eraseU_keys_ne f.userProps name)

/-- C3 (amended): on an existing live dataset whose named property — one
the set-property verb accepts — currently has inherited source, setting a
non-clear value without force fails as a no-op with a property-policy
error, and with force it succeeds, the property becoming local on the
target dataset only. -/
theorem setproperty_inherited_force (z : Zfs) (name value : String) (d : DsName) (f : Fs)
    (ha : authorizedSet name) (hs : d.snap = none)
    (hf : getFs z.state.fss d.path = some f)
    (hsrc : srcOf z.state d.path name = .inheritedSrc)
    (hv : value ≠ "") :
    exec z (.setProperty name value d false) = (some ZErr.propertyPolicy, z) ∧
      (exec z (.setProperty name value d true)).1 = none ∧
      srcOf (exec z (.setProperty name value d true)).2.state d.path name = .localSrc ∧
      ∀ q, q ≠ d.path →
        getFs (exec z (.setProperty name value d true)).2.state.fss q = getFs z.state.fss q := by
  have hna : ¬ ¬ authorizedSet name := not_not_intro ha
  constructor
  · simp only [exec, compute, computeSetProperty, hs, hf, if_neg hna, eq_self_iff_true, and_true]
    rw [if_pos hsrc]
  · simp only [exec, compute, computeSetProperty, hs, hf, if_neg hna, Bool.true_eq_false,
      and_false, if_false, commit]
    refine ⟨by trivial, ?_, ?_⟩
    · have hupd : getFs (updFs z.state.fss d.path
          (fun g => setLocal g name (if value = "" then none else some value))) d.path =
          some (setLocal f name (some value)) := by
        rw [getFs_updFs_self, hf, if_neg hv]
        rfl
      unfold srcOf
      rw [hupd]
      simp [getLocal_setLocal_self]
    · intro q hq
      exact getFs_updFs_ne _ _ _ _ hq

/-- Witness for C3's amended statement on a concrete inherited user property. -/
theorem setproperty_inherited_force_witness :
    exec zC3w (.setProperty BootfsDatasetsProp "x y" ⟨["rpool", "a"], none⟩ false) =
        (some ZErr.propertyPolicy, zC3w) ∧
      (exec zC3w (.setProperty BootfsDatasetsProp "x y" ⟨["rpool", "a"], none⟩ true)).1 = none :=
  ⟨(setproperty_inherited_force zC3w BootfsDatasetsProp "x y" ⟨["rpool", "a"], none⟩ fsE
      (by decide) rfl (by decide) (by decide) (by decide)).1,
   (setproperty_inherited_force zC3w BootfsDatasetsProp "x y" ⟨["rpool", "a"], none⟩ fsE
      (by decide) rfl (by decide) (by decide) (by decide)).2.1⟩

/-- Counterexample for C3 as stated: mountpoint on `rpool/a` has inherited
source, yet setting it with force still fails (property policy), so a
forced set of an inherited property does not always succeed. -/
theorem setproperty_inherited_forced_cex :
    srcOf stC3x ["rpool", "a"] MountPointProp = Src.inheritedSrc ∧
      exec zC3x (.setProperty MountPointProp "/x" ⟨["rpool", "a"], none⟩ true) =
        (some ZErr.propertyPolicy, zC3x) := by
  decide

/-- C8: destroying a live dataset is blocked with has-clones — the scan
unchanged — exactly when some live dataset outside its subtree has an
origin inside it; with no such clone the recursive destroy succeeds,
removing the subtree and its snapshots. -/
theorem destroy_blocked_by_clones (z : Zfs) (d : DsName) (f : Fs)
    (htr : z.transactional = false) (hs : d.snap = none)
    (hf : getFs z.state.fss d.path = some f) :
    ((∃ e ∈ z.state.fss, originInSubB e.2.origin d.path = true) →
        exec z (.destroy d) = (some ZErr.hasClones, z)) ∧
      ((¬ ∃ e ∈ z.state.fss, originInSubB e.2.origin d.path = true) →
        (exec z (.destroy d)).1 = none ∧
        (exec z (.destroy d)).2.state.fss = z.state.fss.filter (fun e => !(isUnder d.path e.1)) ∧
        (exec z (.destroy d)).2.state.snaps =
          z.state.snaps.filter (fun e => !(isUnder d.path e.parent))) := by
  simp only [exec, compute, computeDestroy, htr, hs, hf, Bool.false_eq_true, if_false]
  constructor
  · intro hex
    rw [if_pos (List.any_eq_true.mpr hex)]
  · intro hno
    rw [if_neg (fun h => hno (List.any_eq_true.mp h))]
    exact ⟨by trivial, rfl, rfl⟩

/-- Witness for C8: destroying `rpool/a` is blocked by the clone `rpool/b`. -/
theorem destroy_blocked_by_clones_witness :
    exec zC8 (.destroy ⟨["rpool", "a"], none⟩) = (some ZErr.hasClones, zC8) :=
  (destroy_blocked_by_clones zC8 ⟨["rpool", "a"], none⟩ fsE rfl rfl (by decide)).1 (by decide)

/-- Counterexample for C6 as stated: from a state satisfying the canmount
invariant, the verbs snapshot, clone, set-property reach a state where a
clone of a `canmount=on` dataset has effective canmount `on` again. -/
theorem canmount_invariant_cex :
    WF stC6 ∧ canmountInvariant stC6 ∧
      (exec zC6 (.snapshot "s" ⟨["p", "a_1"], none⟩ false)).1 = none ∧
      (exec zC6a (.clone ⟨["p", "a_1"], some "s"⟩ "2" false false)).1 = none ∧
      (exec zC6b (.setProperty CanmountProp "on" ⟨["p", "a_2"], none⟩ false)).1 = none ∧
      ¬ canmountInvariant zC6c.state := by
  decide

/-- C6 (amended): every clone a successful Clone creates carries the
rewritten effective canmount of its source as a local value, where the
rewrite turns `on` into `noauto` and keeps `off` and `noauto`. -/
theorem clone_canmount_rewrite (z : Zfs) (d : DsName) (sn sfx : String)
    (sb recursive : Bool) (res : ZState × List UndoStep × Nat)
    (hsn : d.snap = some sn)
    (hok : compute z (.clone d sfx sb recursive) = .ok res) :
    res.1.fss = (cloneSources z.state d.path sn sb recursive).map
        (fun src => (cloneTarget d.path (replaceLast d.path (stemOf (lastSeg d.path) ++ "_" ++ sfx)) src.1,
                     mkCloneFs z.state z.clock src sn)) ++ z.state.fss ∧
      (∀ src ∈ cloneSources z.state d.path sn sb recursive,
        (mkCloneFs z.state z.clock src sn).canmountL = some (canmountRw (effCanmount z.state src.1)) ∧
        (mkCloneFs z.state z.clock src sn).origin = some (src.1, sn)) ∧
      canmountRw "on" = "noauto" ∧ canmountRw "off" = "off" ∧ canmountRw "noauto" = "noauto" := by
  simp only [compute, computeClone, hsn] at hok
  split at hok
  · exact absurd hok (by simp)
  · split at hok
    · exact absurd hok (by simp)
    · split at hok
      · exact absurd hok (by simp)
      · split at hok
        · exact absurd hok (by simp)
        · split at hok
          · exact absurd hok (by simp)
          · simp only [Except.ok.injEq] at hok
            refine ⟨?_, fun src _ => ⟨rfl, rfl⟩, rfl, rfl, rfl⟩
            rw [← hok]

/-- Witness for C6's amended statement at a concrete clone. -/
theorem clone_canmount_rewrite_witness :
    resW6.1.fss = (cloneSources zW10.state ["rpool", "a"] "s1" false false).map
        (fun src => (cloneTarget ["rpool", "a"]
            (replaceLast ["rpool", "a"] (stemOf (lastSeg ["rpool", "a"]) ++ "_" ++ "9")) src.1,
          mkCloneFs zW10.state zW10.clock src "s1")) ++ zW10.state.fss :=
  (clone_canmount_rewrite zW10 ⟨["rpool", "a"], some "s1"⟩ "s1" "9" false false resW6 rfl
    rfl).1

/-- C7: a recursive clone of a snapshot fails whole as a no-op with a
missing-intermediate error when some non-leaf strict descendant of the
snapshotted dataset lacks the same-named snapshot; when every non-leaf
descendant has it, the clone succeeds, and any dataset lacking the
snapshot (a leaf) is silently skipped — it is not among the clone sources. -/
theorem clone_recursive_missing (z : Zfs) (d : DsName) (sn sfx : String) (sb : Bool)
    (hsn : d.snap = some sn) (hsfx : sfx ≠ "")
    (hsnap : ∃ e ∈ z.state.snaps, snapKey e = (d.path, sn))
    (hroot : ¬ d.path.length < 2)
    (hfresh : ¬ ∃ src ∈ cloneSources z.state d.path sn sb true,
        ∃ e ∈ z.state.fss, e.1 = cloneTarget d.path
          (replaceLast d.path (stemOf (lastSeg d.path) ++ "_" ++ sfx)) src.1) :
    ((∃ e ∈ z.state.fss, strictUnder d.path e.1 = true ∧
        (∃ c ∈ z.state.fss, strictUnder e.1 c.1 = true) ∧
        ¬ ∃ se ∈ z.state.snaps, snapKey se = (e.1, sn)) →
      exec z (.clone d sfx sb true) = (some ZErr.missingIntermediate, z)) ∧
      ((¬ ∃ e ∈ z.state.fss, strictUnder d.path e.1 = true ∧
          (∃ c ∈ z.state.fss, strictUnder e.1 c.1 = true) ∧
          ¬ ∃ se ∈ z.state.snaps, snapKey se = (e.1, sn)) →
        (exec z (.clone d sfx sb true)).1 = none ∧
        (exec z (.clone d sfx sb true)).2.state.fss =
          (cloneSources z.state d.path sn sb true).map
            (fun src => (cloneTarget d.path
                (replaceLast d.path (stemOf (lastSeg d.path) ++ "_" ++ sfx)) src.1,
              mkCloneFs z.state z.clock src sn)) ++ z.state.fss) ∧
      (∀ e ∈ z.state.fss, (¬ ∃ se ∈ z.state.snaps, snapKey se = (e.1, sn)) →
        e ∉ cloneSources z.state d.path sn sb true) := by
  have hns : ¬ ¬ ∃ e ∈ z.state.snaps, snapKey e = (d.path, sn) := not_not_intro hsnap
  simp only [exec, compute, computeClone, hsn, if_neg hsfx, if_neg hns, if_neg hroot]
  refine ⟨?_, ?_, ?_⟩
  · intro hex
    rw [if_pos ⟨by trivial, hex⟩]
  · intro hno
    rw [if_neg (fun h => hno h.2), if_neg hfresh]
    exact ⟨by trivial, rfl⟩
  · intro e he hns2 hmem
    unfold cloneSources at hmem
    simp only [if_pos rfl] at hmem
    have := List.of_mem_filter hmem
    simp only [Bool.and_eq_true, decide_eq_true_eq] at this
    exact hns2 this.1.2

/-- Witness for C7 at a concrete subtree with one leaf lacking the
snapshot: the recursive clone succeeds. -/
theorem clone_recursive_missing_witness :
    (exec zW7 cW7).1 = none :=
  ((clone_recursive_missing zW7 ⟨["r", "u"], some "s"⟩ "s" "2" false rfl (by decide)
      (by decide) (by decide) (by decide)).2.1 (by decide)).1

theorem applyUndos_append (a b : List UndoStep) (s : ZState) :
    applyUndos (a ++ b) s = applyUndos b (applyUndos a s) :=
  List.foldl_append _ _ _ _

theorem getFs_cons (e : Path × Fs) (rest : List (Path × Fs)) (p : Path) :
    getFs (e :: rest) p = if e.1 = p then some e.2 else getFs rest p := by
  obtain ⟨a, b⟩ := e
  rfl

theorem getFs_mem (l : List (Path × Fs)) (p : Path) (f : Fs)
    (h : getFs l p = some f) : (p, f) ∈ l := by
  induction l with
  | nil => exact absurd h (by simp [getFs])
  | cons e rest ih =>
    rw [getFs_cons] at h
    by_cases he : e.1 = p
    · rw [if_pos he] at h
      obtain rfl : e.2 = f := by simpa using h
      obtain ⟨a, b⟩ := e
      obtain rfl : a = p := he
      exact List.mem_cons_self _ _
    · rw [if_neg he] at h
      exact List.mem_cons_of_mem _ (ih h)

theorem mem_getFs_of_nodup (l : List (Path × Fs)) (hnd : (l.map Prod.fst).Nodup)
    (e : Path × Fs) (he : e ∈ l) : getFs l e.1 = some e.2 := by
  induction l with
  | nil => exact absurd he (by simp)
  | cons a rest ih =>
    rcases List.mem_cons.mp he with h | h
    · subst h
      rw [getFs_cons, if_pos rfl]
    · have hne : a.1 ≠ e.1 := by
        intro hc
        have : a.1 ∈ rest.map Prod.fst := hc ▸ List.mem_map_of_mem Prod.fst h
        exact (List.nodup_cons.mp hnd).1 this
      rw [getFs_cons, if_neg hne]
      exact ih (List.nodup_cons.mp hnd).2 h

theorem getFs_map_keyfix (F : Path × Fs → Path × Fs) (hF : ∀ e, (F e).1 = e.1)
    (l : List (Path × Fs)) (q : Path) :
    getFs (l.map F) q = (getFs l q).map (fun f => (F (q, f)).2) := by
  induction l with
  | nil => rfl
  | cons e rest ih =>
    rw [List.map_cons, getFs_cons, getFs_cons, hF e]
    by_cases he : e.1 = q
    · rw [if_pos he, if_pos he]
      obtain ⟨a, b⟩ := e
      obtain rfl : a = q := he
      rfl
    · rw [if_neg he, if_neg he, ih]

theorem keys_map_keyfix (F : Path × Fs → Path × Fs) (hF : ∀ e, (F e).1 = e.1)
    (l : List (Path × Fs)) : (l.map F).map Prod.fst = l.map Prod.fst := by
  induction l with
  | nil => rfl
  | cons e rest ih => simp [hF e, ih]

theorem updFs_keys (l : List (Path × Fs)) (p : Path) (g : Fs → Fs) :
    (updFs l p g).map Prod.fst = l.map Prod.fst := by
  induction l with
  | nil => rfl
  | cons e rest ih =>
    obtain ⟨a, b⟩ := e
    by_cases ha : a = p <;> simp [updFs, ha, ih]

theorem updFs_not_mem (l : List (Path × Fs)) (p : Path) (g : Fs → Fs)
    (h : p ∉ l.map Prod.fst) : updFs l p g = l := by
  induction l with
  | nil => rfl
  | cons e rest ih =>
    obtain ⟨a, b⟩ := e
    simp only [List.map_cons, List.mem_cons] at h
    push_neg at h
    simp only [updFs, if_neg (fun hc : a = p => h.1 hc.symm)]
    rw [ih h.2]

theorem mem_updFs (l : List (Path × Fs)) (p : Path) (g : Fs → Fs)
    (e' : Path × Fs) (he : e' ∈ updFs l p g) :
    ∃ e ∈ l, e'.1 = e.1 ∧ (e'.2 = e.2 ∨ e'.2 = g e.2) := by
  induction l with
  | nil => exact absurd he (by simp [updFs])
  | cons a rest ih =>
    obtain ⟨q, b⟩ := a
    by_cases hq : q = p
    · simp only [updFs, if_pos hq] at he
      rcases List.mem_cons.mp he with h | h
      · exact ⟨(q, b), List.mem_cons_self _ _, by simp [h]⟩
      · obtain ⟨e, he2, h1, h2⟩ := ih h
        exact ⟨e, List.mem_cons_of_mem _ he2, h1, h2⟩
    · simp only [updFs, if_neg hq] at he
      rcases List.mem_cons.mp he with h | h
      · exact ⟨(q, b), List.mem_cons_self _ _, by simp [h]⟩
      · obtain ⟨e, he2, h1, h2⟩ := ih h
        exact ⟨e, List.mem_cons_of_mem _ he2, h1, h2⟩

theorem updFs_updFs_cancel (l : List (Path × Fs)) (p : Path) (g1 g2 : Fs → Fs)
    (f : Fs) (hnd : (l.map Prod.fst).Nodup) (hf : getFs l p = some f)
    (hg : g2 (g1 f) = f) : updFs (updFs l p g1) p g2 = l := by
  induction l with
  | nil => rfl
  | cons a rest ih =>
    obtain ⟨q, b⟩ := a
    rw [getFs_cons] at hf
    by_cases hq : q = p
    · rw [if_pos hq] at hf
      obtain rfl : b = f := by simpa using hf
      have hrest : p ∉ rest.map Prod.fst := hq ▸ (List.nodup_cons.mp hnd).1
      simp only [updFs, if_pos hq]
      rw [updFs_not_mem rest p g1 hrest, updFs_not_mem rest p g2 hrest, hg]
    · rw [if_neg hq] at hf
      simp only [updFs, if_neg hq]
      rw [ih (List.nodup_cons.mp hnd).2 hf]

theorem sortedU_eraseU (l : List (String × String)) (k : String)
    (h : sortedU l) : sortedU (eraseU l k) :=
  h.sublist (List.filter_sublist l)

theorem getU_none_keys (l : List (String × String)) (k : String)
    (hg : getU l k = none) : ∀ e ∈ l, e.1 ≠ k := by
  induction l with
  | nil => simp
  | cons f rest ih =>
    obtain ⟨c, d⟩ := f
    by_cases hck : c = k
    · simp [getU, hck] at hg
    · simp only [getU, if_neg hck] at hg
      intro e he
      rcases List.mem_cons.mp he with rfl | hh
      · exact hck
      · exact ih hg e hh

theorem mem_insertU (a e : String × String) (l : List (String × String)) :
    a ∈ insertU e l ↔ a = e ∨ a ∈ l := by
  induction l with
  | nil => simp [insertU]
  | cons f rest ih =>
    by_cases he : e.1 < f.1
    · simp [insertU, he]
    · simp only [insertU, if_neg he, List.mem_cons, ih]
      tauto

theorem sortedU_insertU (l : List (String × String)) (k v : String)
    (h : sortedU l) (hk : ∀ e ∈ l, e.1 ≠ k) : sortedU (insertU (k, v) l) := by
  induction l with
  | nil => simp [insertU, sortedU]
  | cons f rest ih =>
    have hf : f.1 ≠ k := hk f (List.mem_cons_self _ _)
    have hrest : ∀ e ∈ rest, e.1 ≠ k := fun e he => hk e (List.mem_cons_of_mem _ he)
    rcases List.pairwise_cons.mp h with ⟨hfall, hrest2⟩
    by_cases hlt : (k : String) < f.1
    · simp only [insertU, if_pos hlt]
      refine List.pairwise_cons.mpr ⟨?_, h⟩
      intro e he
      rcases List.mem_cons.mp he with rfl | he2
      · exact hlt
      · exact lt_trans hlt (hfall e he2)
    · have hgt : f.1 < k := lt_of_le_of_ne (not_lt.mp hlt) (fun hc => hf hc)
      simp only [insertU, if_neg hlt]
      refine List.pairwise_cons.mpr ⟨?_, ih hrest2 hrest⟩
      intro e he
      rcases (mem_insertU e (k, v) rest).mp he with rfl | he2
      · exact hgt
      · exact hfall e he2

theorem eraseU_not_mem (l : List (String × String)) (k : String)
    (h : ∀ e ∈ l, e.1 ≠ k) : eraseU l k = l := by
  unfold eraseU
  rw [List.filter_eq_self]
  intro e he
  simpa using h e he

theorem eraseU_insertU (l : List (String × String)) (k v : String)
    (h : sortedU l) (hk : ∀ e ∈ l, e.1 ≠ k) : eraseU (insertU (k, v) l) k = l := by
  induction l with
  | nil => simp [insertU, eraseU]
  | cons f rest ih =>
    have hf : f.1 ≠ k := hk f (List.mem_cons_self _ _)
    have hrest : ∀ e ∈ rest, e.1 ≠ k := fun e he => hk e (List.mem_cons_of_mem _ he)
    rcases List.pairwise_cons.mp h with ⟨-, hrest2⟩
    by_cases hlt : (k : String) < f.1
    · simp only [insertU, if_pos hlt]
      unfold eraseU
      rw [List.filter_cons_of_neg (by simp), List.filter_cons_of_pos (by simpa using hf)]
      have := eraseU_not_mem rest k hrest
      unfold eraseU at this
      rw [this]
    · simp only [insertU, if_neg hlt]
      unfold eraseU
      rw [List.filter_cons_of_pos (by simpa using hf)]
      have := ih hrest2 hrest
      unfold eraseU at this
      rw [this]

theorem getU_mem (l : List (String × String)) (k w : String)
    (h : getU l k = some w) : (k, w) ∈ l := by
  induction l with
  | nil => exact absurd h (by simp [getU])
  | cons f rest ih =>
    obtain ⟨a, b⟩ := f
    by_cases ha : a = k
    · simp only [getU, if_pos ha] at h
      obtain rfl : b = w := by simpa using h
      obtain rfl : a = k := ha
      exact List.mem_cons_self _ _
    · simp only [getU, if_neg ha] at h
      exact List.mem_cons_of_mem _ (ih h)

theorem insertU_eraseU (l : List (String × String)) (k w : String)
    (h : sortedU l) (hw : getU l k = some w) : insertU (k, w) (eraseU l k) = l := by
  induction l with
  | nil => exact absurd hw (by simp [getU])
  | cons f rest ih =>
    obtain ⟨a, b⟩ := f
    rcases List.pairwise_cons.mp h with ⟨hfall, hrest2⟩
    by_cases ha : a = k
    · simp only [getU, if_pos ha] at hw
      obtain rfl : b = w := by simpa using hw
      subst ha
      have hrest : ∀ e ∈ rest, e.1 ≠ a := by
        intro e he hc
        exact absurd (hfall e he) (by rw [hc]; exact lt_irrefl _)
      unfold eraseU
      rw [List.filter_cons_of_neg (by simp)]
      have herase := eraseU_not_mem rest a hrest
      unfold eraseU at herase
      rw [herase]
      cases rest with
      | nil => rfl
      | cons g rrest =>
        have hlt : (a : String) < g.1 := hfall g (List.mem_cons_self _ _)
        simp [insertU, hlt]
    · simp only [getU, if_neg ha] at hw
      have hak : (a : String) < k := by
        have := hfall _ (getU_mem rest k w hw)
        exact this
      unfold eraseU
      rw [List.filter_cons_of_pos (by simpa using ha)]
      have hih := ih hrest2 hw
      unfold eraseU at hih
      rw [show insertU (k, w) ((a, b) :: List.filter (fun e => !(e.1 == k)) rest) =
        (a, b) :: insertU (k, w) (List.filter (fun e => !(e.1 == k)) rest) from ?_, hih]
      simp [insertU, not_lt.mpr (le_of_lt hak)]

theorem sortedU_setU (l : List (String × String)) (k : String) (v : Option String)
    (h : sortedU l) : sortedU (setU l k v) := by
  cases v with
  | none => exact sortedU_eraseU l k h
  | some w =>
    exact sortedU_insertU _ k w (sortedU_eraseU l k h) (eraseU_keys_ne l k)

theorem setU_restore (l : List (String × String)) (k : String) (v : Option String)
    (h : sortedU l) : setU (setU l k v) k (getU l k) = l := by
  cases hg : getU l k with
  | none =>
    have hnm : ∀ e ∈ l, e.1 ≠ k := getU_none_keys l k hg
    cases v with
    | none =>
      show eraseU (eraseU l k) k = l
      rw [eraseU_not_mem l k hnm, eraseU_not_mem l k hnm]
    | some w =>
      show eraseU (insertU (k, w) (eraseU l k)) k = l
      rw [eraseU_not_mem l k hnm, eraseU_insertU l k w h hnm]
  | some w =>
    cases v with
    | none =>
      show insertU (k, w) (eraseU (eraseU l k) k) = l
      rw [eraseU_not_mem (eraseU l k) k (eraseU_keys_ne l k)]
      exact insertU_eraseU l k w h hg
    | some u =>
      show insertU (k, w) (eraseU (insertU (k, u) (eraseU l k)) k) = l
      rw [eraseU_insertU (eraseU l k) k u (sortedU_eraseU l k h) (eraseU_keys_ne l k)]
      exact insertU_eraseU l k w h hg

theorem setLocal_origin (f : Fs) (n : String) (v : Option String) :
    (setLocal f n v).origin = f.origin := by
  unfold setLocal
  split
  · rfl
  · split
    · rfl
    · split
      · rfl
      · rfl

theorem setLocal_userProps_sorted (f : Fs) (n : String) (v : Option String)
    (h : sortedU f.userProps) : sortedU (setLocal f n v).userProps := by
  unfold setLocal
  split
  · exact h
  · split
    · exact h
    · split
      · exact h
      · exact sortedU_setU f.userProps n v h

theorem setLocal_setLocal_restore (f : Fs) (n : String) (v : Option String)
    (h : sortedU f.userProps) :
    setLocal (setLocal f n v) n (getLocal f n) = f := by
  by_cases h1 : n = CanmountProp
  · subst h1
    simp [setLocal, getLocal]
  · by_cases h2 : n = BootfsProp
    · subst h2
      simp [setLocal, getLocal, h1]
    · by_cases h3 : n = MountPointProp
      · subst h3
        simp [setLocal, getLocal, h1, h2]
      · simp only [setLocal, getLocal, if_neg h1, if_neg h2, if_neg h3]
        rw [setU_restore f.userProps n v h]

theorem applyUndos_snapSteps (qs : List Path) (sn : String) (s : ZState) :
    applyUndos (qs.map (fun q => UndoStep.destroySnap q sn)) s =
      { s with snaps :=
          qs.foldl (fun acc q => acc.eraseP (fun e => decide (snapKey e = (q, sn)))) s.snaps } := by
  induction qs generalizing s with
  | nil => rfl
  | cons q qs ih =>
    simp only [List.map_cons, List.foldl_cons]
    show applyUndos (qs.map (fun q => UndoStep.destroySnap q sn))
        (applyUndo s (UndoStep.destroySnap q sn)) = _
    rw [ih]
    rfl

theorem foldl_eraseSnap_cons (qs : List Path) (sn : String) (a : SnapE) (l : List SnapE)
    (ha : ∀ q ∈ qs, ¬ snapKey a = (q, sn)) :
    qs.foldl (fun acc q => acc.eraseP (fun e => decide (snapKey e = (q, sn)))) (a :: l) =
      a :: qs.foldl (fun acc q => acc.eraseP (fun e => decide (snapKey e = (q, sn)))) l := by
  induction qs generalizing l with
  | nil => rfl
  | cons q qs ih =>
    simp only [List.foldl_cons]
    rw [List.eraseP_cons_of_neg (by simpa using ha q (List.mem_cons_self _ _))]
    exact ih (l.eraseP (fun e => decide (snapKey e = (q, sn))))
      (fun q' hq' => ha q' (List.mem_cons_of_mem _ hq'))

theorem foldl_eraseSnap_block (ks : List Path) (sn : String) (c : Nat) (l : List SnapE)
    (hnd : ks.Nodup) :
    ks.reverse.foldl (fun acc q => acc.eraseP (fun e => decide (snapKey e = (q, sn))))
      (ks.map (fun q => ⟨q, sn, c⟩) ++ l) = l := by
  induction ks with
  | nil => rfl
  | cons t ts ih =>
    rcases List.nodup_cons.mp hnd with ⟨hnt, hnd2⟩
    simp only [List.reverse_cons, List.map_cons, List.cons_append, List.foldl_append,
      List.foldl_cons, List.foldl_nil]
    rw [foldl_eraseSnap_cons ts.reverse sn ⟨t, sn, c⟩ _ ?hne]
    · rw [ih hnd2]
      rw [List.eraseP_cons_of_pos (by simp [snapKey])]
    case hne =>
      intro q hq hc
      have : t = q := by simpa [snapKey] using hc
      exact hnt (this ▸ List.mem_reverse.mp hq)

theorem cancel_snap_block (ks : List Path) (sn : String) (c : Nat) (s : ZState)
    (hnd : ks.Nodup) :
    applyUndos ((ks.map (fun q => UndoStep.destroySnap q sn)).reverse)
      { s with snaps := ks.map (fun q => ⟨q, sn, c⟩) ++ s.snaps } = s := by
  rw [← List.map_reverse, applyUndos_snapSteps]
  show ZState.mk s.fss _ = s
  rw [foldl_eraseSnap_block ks sn c s.snaps hnd]

theorem applyUndos_fsSteps (ps : List Path) (s : ZState) :
    applyUndos (ps.map UndoStep.destroyFs) s =
      { s with fss := ps.foldl (fun acc p => acc.eraseP (fun e => decide (e.1 = p))) s.fss } := by
  induction ps generalizing s with
  | nil => rfl
  | cons p ps ih =>
    simp only [List.map_cons, List.foldl_cons]
    show applyUndos (ps.map UndoStep.destroyFs) (applyUndo s (UndoStep.destroyFs p)) = _
    rw [ih]
    rfl

theorem foldl_eraseFs_cons (ps : List Path) (a : Path × Fs) (l : List (Path × Fs))
    (ha : ∀ p ∈ ps, ¬ a.1 = p) :
    ps.foldl (fun acc p => acc.eraseP (fun e => decide (e.1 = p))) (a :: l) =
      a :: ps.foldl (fun acc p => acc.eraseP (fun e => decide (e.1 = p))) l := by
  induction ps generalizing l with
  | nil => rfl
  | cons p ps ih =>
    simp only [List.foldl_cons]
    rw [List.eraseP_cons_of_neg (by simpa using ha p (List.mem_cons_self _ _))]
    exact ih (l.eraseP (fun e => decide (e.1 = p)))
      (fun p' hp' => ha p' (List.mem_cons_of_mem _ hp'))

theorem foldl_eraseFs_block (es : List (Path × Fs)) (l : List (Path × Fs))
    (hnd : (es.map Prod.fst).Nodup) :
    (es.map Prod.fst).reverse.foldl (fun acc p => acc.eraseP (fun e => decide (e.1 = p)))
      (es ++ l) = l := by
  induction es with
  | nil => rfl
  | cons e es ih =>
    rcases List.nodup_cons.mp hnd with ⟨hne, hnd2⟩
    simp only [List.map_cons, List.reverse_cons, List.cons_append, List.foldl_append,
      List.foldl_cons, List.foldl_nil]
    rw [foldl_eraseFs_cons (es.map Prod.fst).reverse e _ ?hne2]
    · rw [ih hnd2]
      rw [List.eraseP_cons_of_pos (by simp)]
    case hne2 =>
      intro p hp hc
      exact hne (hc ▸ List.mem_reverse.mp hp)

theorem cancel_fs_block (es : List (Path × Fs)) (s : ZState)
    (hnd : (es.map Prod.fst).Nodup) :
    applyUndos ((es.map (fun e => UndoStep.destroyFs e.1)).reverse) { s with fss := es ++ s.fss } = s := by
  have hmm : es.map (fun e => UndoStep.destroyFs e.1) = (es.map Prod.fst).map UndoStep.destroyFs := by
    rw [List.map_map]
    rfl
  rw [hmm, ← List.map_reverse, applyUndos_fsSteps]
  show ZState.mk _ s.snaps = s
  rw [foldl_eraseFs_block es s.fss hnd]

theorem cancel_setprop_block (s : ZState) (p : Path) (name : String) (v : Option String)
    (f : Fs) (hnd : (s.fss.map Prod.fst).Nodup) (hf : getFs s.fss p = some f)
    (hsort : sortedU f.userProps) :
    applyUndos [UndoStep.restoreProp p name (getLocal f name)]
      { s with fss := updFs s.fss p (fun g => setLocal g name v) } = s := by
  show ZState.mk (updFs (updFs s.fss p (fun g => setLocal g name v)) p
    (fun g => setLocal g name (getLocal f name))) s.snaps = s
  rw [updFs_updFs_cancel s.fss p _ _ f hnd hf (setLocal_setLocal_restore f name v hsort)]

theorem map_id_of_mem {α : Type} (l : List α) (f : α → α) (h : ∀ a ∈ l, f a = a) :
    l.map f = l := by
  induction l with
  | nil => rfl
  | cons a rest ih =>
    rw [List.map_cons, h a (List.mem_cons_self _ _),
      ih (fun b hb => h b (List.mem_cons_of_mem _ hb))]

theorem isUnder_refl (p : Path) : isUnder p p = true := by
  induction p with
  | nil => rfl
  | cons a rest ih => simp [isUnder, ih]

theorem isUnder_append_drop (a q : Path) (h : isUnder a q = true) :
    a ++ q.drop a.length = q := by
  induction a generalizing q with
  | nil => simp
  | cons x xs ih =>
    cases q with
    | nil => simp [isUnder] at h
    | cons y ys =>
      simp only [isUnder, Bool.and_eq_true, beq_iff_eq] at h
      obtain ⟨rfl, h2⟩ := h
      simp only [List.cons_append, List.length_cons, List.drop_succ_cons]
      rw [ih ys h2]

theorem strictUnder_irrefl (p : Path) : strictUnder p p = false := by
  simp [strictUnder]

theorem piBad_comm (o : Option (Path × String)) (a b : Path) :
    piBad o a b = piBad o b a := by
  cases o with
  | none => rfl
  | some k => simp [piBad, Bool.or_comm]

theorem pSwap_fss_keys (x p : Path) (sn : String) (pi : Option (Path × String)) (s : ZState) :
    (pSwap x p sn pi s).fss.map Prod.fst = s.fss.map Prod.fst := by
  unfold pSwap
  apply keys_map_keyfix
  intro e
  dsimp only
  split
  · rfl
  · split
    · rfl
    · split
      · rfl
      · rfl

theorem getFs_pSwap (x p : Path) (sn : String) (pi : Option (Path × String))
    (s : ZState) (q : Path) :
    getFs (pSwap x p sn pi s).fss q = (getFs s.fss q).map (fun f =>
      if q = x then { f with origin := pi }
      else if q = p then { f with origin := some (x, sn) }
      else if f.origin = some (p, sn) then { f with origin := some (x, sn) }
      else f) := by
  unfold pSwap
  rw [getFs_map_keyfix _ ?hkey]
  case hkey =>
    intro e
    dsimp only
    split
    · rfl
    · split
      · rfl
      · split
        · rfl
        · rfl
  congr 1
  funext f
  by_cases h1 : q = x
  · subst h1
    simp
  · by_cases h2 : q = p
    · subst h2
      simp [h1]
    · by_cases h3 : f.origin = some (p, sn)
      · simp [h1, h2, h3]
      · simp [h1, h2, h3]

theorem pOne_ok_spec (x : Path) (s s' : ZState) (pp : Path)
    (hok : pOne x s = .ok (s', pp)) :
    ∃ fx sn fp,
      getFs s.fss x = some fx ∧
      fx.origin = some (pp, sn) ∧
      (∃ e ∈ s.snaps, snapKey e = (pp, sn)) ∧
      ¬ (∃ e ∈ s.snaps, snapKey e = (x, sn)) ∧
      pp ≠ x ∧
      getFs s.fss pp = some fp ∧
      piBad fp.origin x pp = false ∧
      s' = pSwap x pp sn fp.origin s := by
  unfold pOne at hok
  cases hgx : getFs s.fss x with
  | none => rw [hgx] at hok; exact absurd hok (by simp)
  | some fx =>
    simp only [hgx] at hok
    cases hox : fx.origin with
    | none => simp only [hox] at hok; exact absurd hok (by simp)
    | some psn =>
      obtain ⟨p, sn⟩ := psn
      simp only [hox] at hok
      by_cases h1 : ¬ ∃ e ∈ s.snaps, snapKey e = (p, sn)
      · rw [if_pos h1] at hok; exact absurd hok (by simp)
      · rw [if_neg h1] at hok
        by_cases h2 : ∃ e ∈ s.snaps, snapKey e = (x, sn)
        · rw [if_pos h2] at hok; exact absurd hok (by simp)
        · rw [if_neg h2] at hok
          by_cases h3 : p = x
          · rw [if_pos h3] at hok; exact absurd hok (by simp)
          · rw [if_neg h3] at hok
            cases hgp : getFs s.fss p with
            | none => rw [hgp] at hok; exact absurd hok (by simp)
            | some fp =>
              simp only [hgp] at hok
              by_cases h4 : piBad fp.origin x p = true
              · rw [if_pos h4] at hok; exact absurd hok (by simp)
              · rw [if_neg h4] at hok
                simp only [Except.ok.injEq, Prod.mk.injEq] at hok
                obtain ⟨hs', hpp⟩ := hok
                subst hpp
                exact ⟨fx, sn, fp, rfl, hox, not_not.mp h1, h2, h3, hgp,
                  Bool.not_eq_true _ ▸ h4, hs'.symm⟩

theorem ZState_ext (a b : ZState) (h1 : a.fss = b.fss) (h2 : a.snaps = b.snaps) : a = b := by
  cases a
  cases b
  cases h1
  cases h2
  rfl

theorem Fs_set_origin_self (f : Fs) (o : Option (Path × String)) (h : f.origin = o) :
    ({ f with origin := o } : Fs) = f := by
  rw [← h]

theorem SnapE_set_parent_self (e : SnapE) (q : Path) (h : e.parent = q) :
    ({ e with parent := q } : SnapE) = e := by
  rw [← h]

theorem pSwap_pSwap (x p : Path) (sn : String) (s : ZState) (fx fp : Fs)
    (hW1 : (s.fss.map Prod.fst).Nodup)
    (hW4 : ∀ e ∈ s.fss, originOk s e.2.origin)
    (hgx : getFs s.fss x = some fx) (hox : fx.origin = some (p, sn))
    (hgp : getFs s.fss p = some fp) (hpx : p ≠ x)
    (hnsx : ¬ ∃ e ∈ s.snaps, snapKey e = (x, sn))
    (hbad : piBad fp.origin x p = false) :
    pSwap p x sn fp.origin (pSwap x p sn fp.origin s) = s := by
  have hxp : x ≠ p := fun h => hpx h.symm
  apply ZState_ext
  · show ((pSwap x p sn fp.origin s).fss.map _) = s.fss
    unfold pSwap
    dsimp only
    rw [List.map_map]
    apply map_id_of_mem
    intro e he
    obtain ⟨e1, e2⟩ := e
    simp only [Function.comp_apply]
    by_cases h1 : e1 = x
    · subst h1
      have he2 : e2 = fx := by
        have hm := mem_getFs_of_nodup s.fss hW1 (e1, e2) he
        rw [hgx] at hm
        exact (Option.some.injEq _ _ ▸ hm).symm
      subst he2
      simp only [if_pos rfl, eq_self_iff_true, if_true, if_neg hxp]
      simp [hxp]
      exact Fs_set_origin_self e2 _ hox
    · by_cases h2 : e1 = p
      · subst h2
        have he2 : e2 = fp := by
          have hm := mem_getFs_of_nodup s.fss hW1 (e1, e2) he
          rw [hgp] at hm
          exact (Option.some.injEq _ _ ▸ hm).symm
        subst he2
        simp [h1]
      · by_cases h3 : e2.origin = some (p, sn)
        · simp [h1, h2, h3]
          exact Fs_set_origin_self e2 _ h3
        · have h4 : ¬ e2.origin = some (x, sn) := by
            intro hc
            have := hW4 (e1, e2) he
            rw [hc] at this
            exact hnsx this
          simp [h1, h2, h3, h4]
  · show ((pSwap x p sn fp.origin s).snaps.map _) = s.snaps
    unfold pSwap
    dsimp only
    rw [List.map_map]
    apply map_id_of_mem
    intro e he
    simp only [Function.comp_apply]
    by_cases hk : snapKey e = (p, sn)
    · have hk2 : e.parent = p ∧ e.name = sn := by
        have := hk
        simp only [snapKey, Prod.mk.injEq] at this
        exact this
      rw [if_pos hk]
      rw [if_pos (show snapKey { e with parent := x } = (x, sn) by simp [snapKey, hk2.2])]
      have : ({ { e with parent := x } with parent := p } : SnapE) = { e with parent := p } := rfl
      rw [this, SnapE_set_parent_self e p hk2.1]
    · rw [if_neg hk]
      rw [if_neg (fun hc => hnsx ⟨e, he, hc⟩)]

theorem pSwap_snaps_mem_ne (x p : Path) (sn : String) (pi : Option (Path × String))
    (s : ZState) (k : Path × String) (hk : k ≠ (p, sn))
    (h : ∃ e ∈ s.snaps, snapKey e = k) :
    ∃ e ∈ (pSwap x p sn pi s).snaps, snapKey e = k := by
  obtain ⟨e0, he0, rfl⟩ := h
  have hG : (fun e => if snapKey e = (p, sn) then { e with parent := x } else e) e0 = e0 :=
    if_neg (fun hc => hk hc)
  refine ⟨e0, ?_, rfl⟩
  show e0 ∈ s.snaps.map _
  exact hG ▸ List.mem_map_of_mem _ he0

theorem pSwap_snaps_mem_x (x p : Path) (sn : String) (pi : Option (Path × String))
    (s : ZState) (h : ∃ e ∈ s.snaps, snapKey e = (p, sn)) :
    ∃ e ∈ (pSwap x p sn pi s).snaps, snapKey e = (x, sn) := by
  obtain ⟨e0, he0, hk0⟩ := h
  have hk0' : e0.parent = p ∧ e0.name = sn := by
    simpa [snapKey, Prod.mk.injEq] using hk0
  refine ⟨{ e0 with parent := x }, ?_, by simp [snapKey, hk0'.2]⟩
  show _ ∈ s.snaps.map _
  have hG : (fun e => if snapKey e = (p, sn) then { e with parent := x } else e) e0 =
      { e0 with parent := x } := if_pos hk0
  exact hG ▸ List.mem_map_of_mem _ he0

theorem pSwap_snaps_not_mem_p (x p : Path) (sn : String) (pi : Option (Path × String))
    (s : ZState) (hxp : x ≠ p) :
    ¬ ∃ e ∈ (pSwap x p sn pi s).snaps, snapKey e = (p, sn) := by
  rintro ⟨e', he', hk'⟩
  have he2 : e' ∈ s.snaps.map (fun e => if snapKey e = (p, sn) then { e with parent := x } else e) := he'
  obtain ⟨e1, he1, rfl⟩ := List.mem_map.mp he2
  by_cases hc : snapKey e1 = (p, sn)
  · rw [if_pos hc] at hk'
    have : x = p := by
      have := hk'
      simp only [snapKey, Prod.mk.injEq] at this
      exact this.1
    exact hxp this
  · rw [if_neg hc] at hk'
    exact hc hk'

theorem pOne_invol (x : Path) (s s' : ZState) (pp : Path)
    (hW1 : (s.fss.map Prod.fst).Nodup)
    (hW4 : ∀ e ∈ s.fss, originOk s e.2.origin)
    (hok : pOne x s = .ok (s', pp)) :
    pOne pp s' = .ok (s, x) := by
  obtain ⟨fx, sn, fp, hgx, hox, hsnp, hnsx, hpx, hgp, hbad, rfl⟩ := pOne_ok_spec x s s' pp hok
  have hxp : x ≠ pp := fun h => hpx h.symm
  have hgp' : getFs (pSwap x pp sn fp.origin s).fss pp =
      some { fp with origin := some (x, sn) } := by
    rw [getFs_pSwap, hgp]
    simp [hpx]
  have hgx' : getFs (pSwap x pp sn fp.origin s).fss x =
      some { fx with origin := fp.origin } := by
    rw [getFs_pSwap, hgx]
    simp
  have hsnp' := pSwap_snaps_mem_x x pp sn fp.origin s hsnp
  have hnsp' := pSwap_snaps_not_mem_p x pp sn fp.origin s hxp
  have hbad' : ¬ piBad ({ fx with origin := fp.origin } : Fs).origin pp x = true := by
    show ¬ piBad fp.origin pp x = true
    rw [piBad_comm, hbad]
    simp
  unfold pOne
  simp only [hgp', hgx']
  rw [if_neg (not_not_intro hsnp'), if_neg hnsp', if_neg hxp, if_neg hbad']
  show Except.ok (pSwap pp x sn fp.origin (pSwap x pp sn fp.origin s), x) = _
  rw [pSwap_pSwap x pp sn s fx fp hW1 hW4 hgx hox hgp hpx hnsx hbad]

theorem pOne_WF (x : Path) (s s' : ZState) (pp : Path)
    (hW1 : (s.fss.map Prod.fst).Nodup)
    (hW4 : ∀ e ∈ s.fss, originOk s e.2.origin)
    (hW7 : ∀ e ∈ s.fss, sortedU e.2.userProps)
    (hok : pOne x s = .ok (s', pp)) :
    (s'.fss.map Prod.fst).Nodup ∧ (∀ e ∈ s'.fss, originOk s' e.2.origin) ∧
      (∀ e ∈ s'.fss, sortedU e.2.userProps) := by
  obtain ⟨fx, sn, fp, hgx, hox, hsnp, hnsx, hpx, hgp, hbad, rfl⟩ := pOne_ok_spec x s s' pp hok
  have hxsnap := pSwap_snaps_mem_x x pp sn fp.origin s hsnp
  have hne : ∀ k : Path × String, k ≠ (pp, sn) → originOk s (some k) →
      originOk (pSwap x pp sn fp.origin s) (some k) := by
    intro k hk h
    exact pSwap_snaps_mem_ne x pp sn fp.origin s k hk h
  refine ⟨?_, ?_, ?_⟩
  · rw [pSwap_fss_keys]
    exact hW1
  · intro e' he'
    have he2 : e' ∈ s.fss.map (fun e =>
        if e.1 = x then (e.1, { e.2 with origin := fp.origin })
        else if e.1 = pp then (e.1, { e.2 with origin := some (x, sn) })
        else if e.2.origin = some (pp, sn) then (e.1, { e.2 with origin := some (x, sn) })
        else e) := he'
    obtain ⟨e, he, rfl⟩ := List.mem_map.mp he2
    by_cases h1 : e.1 = x
    · rw [if_pos h1]
      show originOk _ fp.origin
      cases hfpo : fp.origin with
      | none => exact trivial
      | some k =>
        have hkpp : k ≠ (pp, sn) := by
          intro hc
          have : piBad fp.origin x pp = true := by
            rw [hfpo, hc]
            simp [piBad]
          rw [hbad] at this
          exact absurd this (by simp)
        have hor := hW4 (pp, fp) (getFs_mem s.fss pp fp hgp)
        rw [hfpo] at hor
        exact hne k hkpp hor
    · rw [if_neg h1]
      by_cases h2 : e.1 = pp
      · rw [if_pos h2]
        exact hxsnap
      · rw [if_neg h2]
        by_cases h3 : e.2.origin = some (pp, sn)
        · rw [if_pos h3]
          exact hxsnap
        · rw [if_neg h3]
          show originOk _ e.2.origin
          cases heo : e.2.origin with
          | none => exact trivial
          | some k =>
            have hor := hW4 e he
            rw [heo] at hor
            exact hne k (fun hc => h3 (by rw [heo, hc])) hor
  · intro e' he'
    have he2 : e' ∈ s.fss.map (fun e =>
        if e.1 = x then (e.1, { e.2 with origin := fp.origin })
        else if e.1 = pp then (e.1, { e.2 with origin := some (x, sn) })
        else if e.2.origin = some (pp, sn) then (e.1, { e.2 with origin := some (x, sn) })
        else e) := he'
    obtain ⟨e, he, rfl⟩ := List.mem_map.mp he2
    have hs := hW7 e he
    by_cases h1 : e.1 = x
    · rw [if_pos h1]
      exact hs
    · rw [if_neg h1]
      by_cases h2 : e.1 = pp
      · rw [if_pos h2]
        exact hs
      · rw [if_neg h2]
        by_cases h3 : e.2.origin = some (pp, sn)
        · rw [if_pos h3]
          exact hs
        · rw [if_neg h3]
          exact hs

theorem pFold_cancel (xs : List Path) (s s' : ZState) (ps : List Path)
    (hW1 : (s.fss.map Prod.fst).Nodup)
    (hW4 : ∀ e ∈ s.fss, originOk s e.2.origin)
    (hW7 : ∀ e ∈ s.fss, sortedU e.2.userProps)
    (h : pFold s xs = .ok (s', ps)) :
    applyUndos ((ps.map UndoStep.promoteFs).reverse) s' = s ∧
      (s'.fss.map Prod.fst).Nodup ∧ (∀ e ∈ s'.fss, originOk s' e.2.origin) ∧
      (∀ e ∈ s'.fss, sortedU e.2.userProps) := by
  induction xs generalizing s s' ps with
  | nil =>
    simp only [pFold, Except.ok.injEq, Prod.mk.injEq] at h
    obtain ⟨rfl, rfl⟩ := h
    exact ⟨rfl, hW1, hW4, hW7⟩
  | cons x xs ih =>
    unfold pFold at h
    cases hgx : getFs s.fss x with
    | none => rw [hgx] at h; exact absurd h (by simp)
    | some fx =>
      simp only [hgx] at h
      cases hox : fx.origin with
      | none =>
        simp only [hox] at h
        exact ih s s' ps hW1 hW4 hW7 h
      | some k =>
        simp only [hox] at h
        cases hp1 : pOne x s with
        | error e => rw [hp1] at h; exact absurd h (by simp)
        | ok r =>
          obtain ⟨s1, pp⟩ := r
          simp only [hp1] at h
          cases h2 : pFold s1 xs with
          | error e => rw [h2] at h; exact absurd h (by simp)
          | ok r2 =>
            obtain ⟨s2, ps2⟩ := r2
            simp only [h2, Except.ok.injEq, Prod.mk.injEq] at h
            obtain ⟨rfl, rfl⟩ := h
            obtain ⟨hN1, hN4, hN7⟩ := pOne_WF x s s1 pp hW1 hW4 hW7 hp1
            obtain ⟨hrec, hF1, hF4, hF7⟩ := ih s1 s2 ps2 hN1 hN4 hN7 h2
            refine ⟨?_, hF1, hF4, hF7⟩
            rw [List.map_cons, List.reverse_cons, applyUndos_append, hrec]
            show applyUndo s1 (UndoStep.promoteFs pp) = s
            simp [applyUndo, pOne_invol x s s1 pp hW1 hW4 hp1]

theorem subtreePaths_nodup (s : ZState) (p : Path)
    (h : (s.fss.map Prod.fst).Nodup) : (subtreePaths s p).Nodup := by
  unfold subtreePaths
  refine List.nodup_cons.mpr ⟨?_, h.filter _⟩
  intro hmem
  have := List.of_mem_filter hmem
  rw [strictUnder_irrefl p] at this
  exact absurd this (by simp)

theorem originOk_mono (s s' : ZState)
    (hsub : ∀ k : Path × String, (∃ e ∈ s.snaps, snapKey e = k) →
      (∃ e ∈ s'.snaps, snapKey e = k))
    (o : Option (Path × String)) (h : originOk s o) : originOk s' o := by
  cases o with
  | none => exact trivial
  | some k => exact hsub k h

theorem originOk_fss_irrel (s : ZState) (x : List (Path × Fs))
    (o : Option (Path × String)) :
    originOk { s with fss := x } o = originOk s o := by
  cases o <;> rfl

theorem cloneSources_sublist (s : ZState) (p : Path) (sn : String) (sb r : Bool) :
    (cloneSources s p sn sb r).Sublist s.fss := by
  unfold cloneSources
  split
  · exact List.filter_sublist s.fss
  · exact List.filter_sublist s.fss

theorem cloneSources_under (s : ZState) (p : Path) (sn : String) (sb r : Bool)
    (src : Path × Fs) (h : src ∈ cloneSources s p sn sb r) : isUnder p src.1 = true := by
  unfold cloneSources at h
  split at h
  · have := List.of_mem_filter h
    simp only [Bool.and_eq_true] at this
    exact this.1.1
  · have := List.of_mem_filter h
    have h2 : src.1 = p := by simpa using this
    rw [h2]
    exact isUnder_refl p

theorem cloneSources_hasSnap (s : ZState) (p : Path) (sn : String) (sb r : Bool)
    (hsnap : ∃ e ∈ s.snaps, snapKey e = (p, sn))
    (src : Path × Fs) (h : src ∈ cloneSources s p sn sb r) :
    ∃ e ∈ s.snaps, snapKey e = (src.1, sn) := by
  unfold cloneSources at h
  split at h
  · have := List.of_mem_filter h
    simp only [Bool.and_eq_true, decide_eq_true_eq] at this
    exact this.1.2
  · have := List.of_mem_filter h
    have h2 : src.1 = p := by simpa using this
    rw [h2]
    exact hsnap

theorem snap_block_aux (s : ZState) (ks : List Path) (sn : String) (c : Nat)
    (hnd : ks.Nodup) (hW1 : (s.fss.map Prod.fst).Nodup)
    (hW4 : ∀ e ∈ s.fss, originOk s e.2.origin)
    (hW7 : ∀ e ∈ s.fss, sortedU e.2.userProps) :
    applyUndos ((ks.map (fun q => UndoStep.destroySnap q sn)).reverse)
      { s with snaps := ks.map (fun q => ⟨q, sn, c⟩) ++ s.snaps } = s ∧
    WF { s with snaps := ks.map (fun q => ⟨q, sn, c⟩) ++ s.snaps } := by
  refine ⟨cancel_snap_block ks sn c s hnd, hW1, ?_, hW7⟩
  intro e he
  refine originOk_mono s _ ?_ _ (hW4 e he)
  rintro k ⟨e0, he0, rfl⟩
  exact ⟨e0, List.mem_append.mpr (Or.inr he0), rfl⟩

theorem compute_block (z : Zfs) (c : Call) (res : ZState × List UndoStep × Nat)
    (hW : WF z.state) (htr : z.transactional = true)
    (hok : compute z c = .ok res) :
    applyUndos res.2.1.reverse res.1 = z.state ∧ WF res.1 := by
  obtain ⟨hW1, hW4, hW7⟩ := hW
  cases c with
  | snapshot sn d r =>
    replace hok : computeSnapshot z sn d r = .ok res := hok
    unfold computeSnapshot at hok
    split at hok
    case isTrue => exact absurd hok (by simp)
    case isFalse h0 =>
      cases hgd : getFs z.state.fss d.path with
      | none => rw [hgd] at hok; exact absurd hok (by simp)
      | some f0 =>
        simp only [hgd] at hok
        split at hok
        case isTrue => exact absurd hok (by simp)
        case isFalse h1 =>
          by_cases hr : r = true
          · rw [if_pos hr] at hok
            split at hok
            · exact absurd hok (by simp)
            · simp only [Except.ok.injEq] at hok
              subst hok
              exact snap_block_aux z.state _ sn z.clock
                (subtreePaths_nodup z.state d.path hW1) hW1 hW4 hW7
          · rw [if_neg hr] at hok
            split at hok
            · exact absurd hok (by simp)
            · simp only [Except.ok.injEq] at hok
              subst hok
              exact snap_block_aux z.state _ sn z.clock (by simp) hW1 hW4 hW7
  | clone d sfx sb r =>
    replace hok : computeClone z d sfx sb r = .ok res := hok
    cases hds : d.snap with
    | none => unfold computeClone at hok; rw [hds] at hok; exact absurd hok (by simp)
    | some sn =>
      unfold computeClone at hok
      simp only [hds] at hok
      split at hok
      case isTrue => exact absurd hok (by simp)
      case isFalse h1 =>
        split at hok
        case isTrue => exact absurd hok (by simp)
        case isFalse h2 =>
          split at hok
          case isTrue => exact absurd hok (by simp)
          case isFalse h3 =>
            split at hok
            case isTrue => exact absurd hok (by simp)
            case isFalse h4 =>
              split at hok
              case isTrue => exact absurd hok (by simp)
              case isFalse h5 =>
                simp only [Except.ok.injEq] at hok
                subst hok
                have hsnap : ∃ e ∈ z.state.snaps, snapKey e = (d.path, sn) := not_not.mp h2
                have hkeys : ((cloneSources z.state d.path sn sb r).map Prod.fst).Nodup :=
                  hW1.sublist ((cloneSources_sublist z.state d.path sn sb r).map Prod.fst)
                have htnd : ∀ R : Path,
                    ((cloneSources z.state d.path sn sb r).map
                      (fun src => cloneTarget d.path R src.1)).Nodup := by
                  intro R
                  have hcomp : (cloneSources z.state d.path sn sb r).map
                      (fun src => cloneTarget d.path R src.1) =
                      ((cloneSources z.state d.path sn sb r).map Prod.fst).map
                        (fun q => cloneTarget d.path R q) := by
                    rw [List.map_map]
                    rfl
                  rw [hcomp]
                  refine List.Nodup.map_on ?_ hkeys
                  intro q1 hq1 q2 hq2 heq
                  obtain ⟨src1, hs1, rfl⟩ := List.mem_map.mp hq1
                  obtain ⟨src2, hs2, rfl⟩ := List.mem_map.mp hq2
                  have hu1 := cloneSources_under z.state d.path sn sb r src1 hs1
                  have hu2 := cloneSources_under z.state d.path sn sb r src2 hs2
                  have hdrop : src1.1.drop d.path.length = src2.1.drop d.path.length :=
                    List.append_cancel_left heq
                  rw [← isUnder_append_drop d.path src1.1 hu1, ← isUnder_append_drop d.path src2.1 hu2,
                    hdrop]
                have heskeys : (((cloneSources z.state d.path sn sb r).map
                    (fun src => (cloneTarget d.path
                      (replaceLast d.path (stemOf (lastSeg d.path) ++ "_" ++ sfx)) src.1,
                      mkCloneFs z.state z.clock src sn))).map Prod.fst) =
                    (cloneSources z.state d.path sn sb r).map
                      (fun src => cloneTarget d.path
                        (replaceLast d.path (stemOf (lastSeg d.path) ++ "_" ++ sfx)) src.1) := by
                  rw [List.map_map]
                  rfl
                refine ⟨?_, ?_, ?_, ?_⟩
                · have hmm : (cloneSources z.state d.path sn sb r).map
                      (fun src => UndoStep.destroyFs (cloneTarget d.path
                        (replaceLast d.path (stemOf (lastSeg d.path) ++ "_" ++ sfx)) src.1)) =
                      ((cloneSources z.state d.path sn sb r).map
                        (fun src => (cloneTarget d.path
                          (replaceLast d.path (stemOf (lastSeg d.path) ++ "_" ++ sfx)) src.1,
                          mkCloneFs z.state z.clock src sn))).map
                        (fun e => UndoStep.destroyFs e.1) := by
                    rw [List.map_map]
                    rfl
                  rw [hmm]
                  refine cancel_fs_block _ z.state ?_
                  rw [heskeys]
                  exact htnd _
                · show ((_ ++ z.state.fss).map Prod.fst).Nodup
                  rw [List.map_append]
                  refine List.Nodup.append ?_ hW1 ?_
                  · rw [heskeys]
                    exact htnd _
                  · intro a ha1 ha2
                    rw [heskeys] at ha1
                    obtain ⟨src, hsrc, rfl⟩ := List.mem_map.mp ha1
                    obtain ⟨e, he, heq⟩ := List.mem_map.mp ha2
                    exact h5 ⟨src, hsrc, e, he, heq⟩
                · intro e' he'
                  rw [originOk_fss_irrel]
                  rcases List.mem_append.mp he' with h | h
                  · obtain ⟨src, hsrc, rfl⟩ := List.mem_map.mp h
                    exact cloneSources_hasSnap z.state d.path sn sb r hsnap src hsrc
                  · exact hW4 e' h
                · intro e' he'
                  rcases List.mem_append.mp he' with h | h
                  · obtain ⟨src, hsrc, rfl⟩ := List.mem_map.mp h
                    exact hW7 src ((cloneSources_sublist z.state d.path sn sb r).subset hsrc)
                  · exact hW7 e' h
  | promote d =>
    replace hok : computePromote z d = .ok res := hok
    unfold computePromote at hok
    split at hok
    case isTrue => exact absurd hok (by simp)
    case isFalse h0 =>
      cases hgd : getFs z.state.fss d.path with
      | none => rw [hgd] at hok; exact absurd hok (by simp)
      | some f0 =>
        simp only [hgd] at hok
        cases hfo : f0.origin with
        | none =>
          simp only [hfo, Except.ok.injEq] at hok
          subst hok
          exact ⟨rfl, hW1, hW4, hW7⟩
        | some kk =>
          obtain ⟨p, sn⟩ := kk
          simp only [hfo] at hok
          split at hok
          case isTrue => exact absurd hok (by simp)
          case isFalse h1 =>
            cases hpf : pFold z.state (d.path :: (z.state.fss.filter (fun e =>
                strictUnder d.path e.1 &&
                (e.2.origin.elim false (fun k => !(isUnder d.path k.1))))).map Prod.fst) with
            | error e => rw [hpf] at hok; exact absurd hok (by simp)
            | ok r2 =>
              obtain ⟨s2, ps2⟩ := r2
              simp only [hpf, Except.ok.injEq] at hok
              subst hok
              obtain ⟨hblock, hF1, hF4, hF7⟩ :=
                pFold_cancel _ z.state s2 ps2 hW1 hW4 hW7 hpf
              exact ⟨hblock, hF1, hF4, hF7⟩
  | destroy d =>
    replace hok : computeDestroy z d = .ok res := hok
    unfold computeDestroy at hok
    rw [htr] at hok
    simp at hok
  | setProperty n v d fc =>
    replace hok : computeSetProperty z n v d fc = .ok res := hok
    unfold computeSetProperty at hok
    split at hok
    case isTrue => exact absurd hok (by simp)
    case isFalse ha =>
      cases hds : d.snap with
      | some ssn => rw [hds] at hok; exact absurd hok (by simp)
      | none =>
        simp only [hds] at hok
        cases hgd : getFs z.state.fss d.path with
        | none => rw [hgd] at hok; exact absurd hok (by simp)
        | some f0 =>
          simp only [hgd] at hok
          split at hok
          case isTrue => exact absurd hok (by simp)
          case isFalse hcond =>
            simp only [Except.ok.injEq] at hok
            subst hok
            have hsort : sortedU f0.userProps :=
              hW7 (d.path, f0) (getFs_mem z.state.fss d.path f0 hgd)
            constructor
            · rw [List.reverse_singleton]
              exact cancel_setprop_block z.state d.path n _ f0 hW1 hgd hsort
            · refine ⟨?_, ?_, ?_⟩
              · show ((updFs z.state.fss d.path _).map Prod.fst).Nodup
                rw [updFs_keys]
                exact hW1
              · intro e' he'
                obtain ⟨e, he, h1, h2⟩ := mem_updFs _ _ _ e' he'
                rw [show originOk _ e'.2.origin = originOk z.state e'.2.origin from
                  originOk_fss_irrel z.state _ _]
                rcases h2 with h2 | h2
                · rw [h2]
                  exact hW4 e he
                · rw [h2, setLocal_origin]
                  exact hW4 e he
              · intro e' he'
                obtain ⟨e, he, h1, h2⟩ := mem_updFs _ _ _ e' he'
                rcases h2 with h2 | h2
                · rw [h2]
                  exact hW7 e he
                · rw [h2]
                  exact setLocal_userProps_sorted _ _ _ (hW7 e he)


theorem exec_preserves (z : Zfs) (c : Call) (hW : WF z.state) (htr : z.transactional = true) :
    WF (exec z c).2.state ∧ (exec z c).2.transactional = true ∧
      applyUndos (exec z c).2.stack (exec z c).2.state = applyUndos z.stack z.state := by
  unfold exec
  cases hok : compute z c with
  | error e => exact ⟨hW, htr, rfl⟩
  | ok res =>
    obtain ⟨hblock, hWF2⟩ := compute_block z c res hW htr hok
    refine ⟨hWF2, htr, ?_⟩
    show applyUndos (commit z res).stack (commit z res).state = _
    unfold commit
    dsimp only
    rw [if_pos htr, applyUndos_append, hblock]

theorem execList_preserves (cs : List Call) (z : Zfs) (hW : WF z.state)
    (htr : z.transactional = true) :
    WF (execList z cs).state ∧ (execList z cs).transactional = true ∧
      applyUndos (execList z cs).stack (execList z cs).state =
        applyUndos z.stack z.state := by
  induction cs generalizing z with
  | nil => exact ⟨hW, htr, rfl⟩
  | cons c cs ih =>
    obtain ⟨h1, h2, h3⟩ := exec_preserves z c hW htr
    obtain ⟨g1, g2, g3⟩ := ih (exec z c).2 h1 h2
    refine ⟨g1, g2, ?_⟩
    show applyUndos (execList (exec z c).2 cs).stack (execList (exec z c).2 cs).state = _
    rw [g3, h3]

/-- C2: on a core constructed with transactions enabled, any sequence of
mutating verbs followed by Cancel — which pops and applies the recorded
inverses in LIFO order — yields a scan equal (after normalizing snapshot
times to the magic constant) to the scan taken before the first verb. -/
theorem cancel_reverts (st : ZState) (clock : Nat) (cs : List Call) (hW : WF st) :
    ((execList (Zfs.new true st clock) cs).cancel).normScan =
      (Zfs.new true st clock).normScan := by
  obtain ⟨-, -, h3⟩ := execList_preserves cs (Zfs.new true st clock) hW rfl
  have hstate : ((execList (Zfs.new true st clock) cs).cancel).state = st := by
    show applyUndos _ _ = st
    rw [h3]
    rfl
  unfold Zfs.normScan Zfs.scan
  rw [show ((execList (Zfs.new true st clock) cs).cancel).state = st from hstate]
  rfl

/-- Witness for C2: a transaction doing recursive snapshot, recursive
clone, promote, set-property and a rejected destroy, then Cancel, returns
to the initial scan. -/
theorem cancel_reverts_witness :
    WF stC2 ∧ ((execList (Zfs.new true stC2 100) csC2).cancel).normScan =
      (Zfs.new true stC2 100).normScan :=
  ⟨by decide, cancel_reverts stC2 100 csC2 (by decide)⟩

end Zsys
